import Mathlib

/-!
Verification of the streaming archive engine in `little-export.core.js`.

Modelling conventions:
* Bytes are natural numbers.  The JavaScript code operates on `Uint8Array`s
  whose elements are already bytes (`0 ≤ b < 256`); where a property needs the
  byte bound it appears as an explicit hypothesis.
* JavaScript strings that are immediately encoded by `TextEncoder` (archive
  paths) are modelled as their UTF-8 byte lists (`List Nat`).
* The AES-GCM primitive (`crypto.subtle.encrypt` / `crypto.subtle.decrypt`) and
  the PBKDF2 key derivation (`deriveKey`) are browser built-ins, not part of
  the repository, so they are parameters: an `AEAD` record of an encryption
  and a decryption function, plus a key-derivation function `dk`.  The facts
  the claims need about them (decryption inverts encryption under the same key
  and nonce, ciphertext is plaintext length plus the 16-byte tag, decryption
  under a different key fails) are explicit hypotheses of the theorems.
* Random values (the 16-byte salt from `crypto.getRandomValues`, the 12-byte
  per-chunk IVs) are parameters: a salt list and a stream `ivs : Nat → List Nat`
  of IVs indexed by the order in which `encryptAndPush` is called.
* Streaming loops (`while` loops consuming a buffer) are modelled as
  structural recursion over an explicit iteration bound ("fuel"); every loop
  consumes at least one byte per iteration, so fuel `input.length + 1` is
  always enough, and fuel-independence lemmas below recover the natural
  recurrences.
-/

namespace LittleExport

/-- `CHUNK_SIZE` constant from the source: 4 MiB. -/
def CHUNK_SIZE : Nat := 4 * 1024 * 1024

/-- UTF-8 bytes of the `"LE_ENC"` signature emitted by `EncryptionTransformer.start`. -/
def sigBytes : List Nat := [76, 69, 95, 69, 78, 67]

/-- Abstract authenticated cipher standing for AES-GCM: `enc key iv plaintext`
returns the ciphertext (with tag), `dec key iv ciphertext` returns the
plaintext or `none` on authentication failure. -/
structure AEAD (K : Type) where
  enc : K → List Nat → List Nat → List Nat
  dec : K → List Nat → List Nat → Option (List Nat)

/-- The 4-byte little-endian length field written by
`lenParams.setUint32(0, ciphertext.byteLength, true)`. -/
def leBytes32 (n : Nat) : List Nat :=
  [n % 256, n / 256 % 256, n / 65536 % 256, n / 16777216 % 256]

/-- `new DataView(consume(4).buffer).getUint32(0, true)` on a 4-byte slice. -/
def decodeLE32 (bs : List Nat) : Nat :=
  bs.getD 0 0 + bs.getD 1 0 * 256 + bs.getD 2 0 * 65536 + bs.getD 3 0 * 16777216

/-- Bytes emitted by one call of `encryptAndPush`: IV, then the 4-byte
little-endian ciphertext length, then the ciphertext. -/
def encChunkOut {K : Type} (A : AEAD K) (key : K) (iv : List Nat) (data : List Nat) : List Nat :=
  iv ++ leBytes32 (A.enc key iv data).length ++ A.enc key iv data

/-- Mutable state of `EncryptionTransformer`: the residual plaintext buffer,
plus the index of the next IV to draw from the IV stream. -/
structure EncST where
  buffer : List Nat
  ctr : Nat

/-- Fuelled form of the `while (this.buffer.length >= CHUNK_SIZE)` loop in
`EncryptionTransformer.transform`: slice off full 4 MiB chunks and emit each
as an encrypted chunk. -/
def encDrainGo {K : Type} (A : AEAD K) (key : K) (ivs : Nat → List Nat) :
    Nat → EncST → EncST × List Nat
  | 0, st => (st, [])
  | fuel + 1, st =>
    if CHUNK_SIZE ≤ st.buffer.length then
      let out1 := encChunkOut A key (ivs st.ctr) (st.buffer.take CHUNK_SIZE)
      let r := encDrainGo A key ivs fuel ⟨st.buffer.drop CHUNK_SIZE, st.ctr + 1⟩
      (r.1, out1 ++ r.2)
    else (st, [])

/-- The chunk-slicing loop with enough fuel to run to completion. -/
def encDrain {K : Type} (A : AEAD K) (key : K) (ivs : Nat → List Nat) (st : EncST) :
    EncST × List Nat :=
  encDrainGo A key ivs (st.buffer.length + 1) st

/-- `EncryptionTransformer.transform`: append the incoming chunk to the
residual buffer, then drain full chunks. -/
def encTransform {K : Type} (A : AEAD K) (key : K) (ivs : Nat → List Nat)
    (st : EncST) (chunk : List Nat) : EncST × List Nat :=
  encDrain A key ivs ⟨st.buffer ++ chunk, st.ctr⟩

/-- `EncryptionTransformer.flush`: encrypt the residual buffer as a final
chunk, but only when it is non-empty (`if (this.buffer.length > 0)`). -/
def encFlush {K : Type} (A : AEAD K) (key : K) (ivs : Nat → List Nat) (st : EncST) : List Nat :=
  if 0 < st.buffer.length then encChunkOut A key (ivs st.ctr) st.buffer else []

/-- Feeding a sequence of plaintext chunks through `transform`, concatenating
everything enqueued downstream. -/
def runTransforms {K : Type} (A : AEAD K) (key : K) (ivs : Nat → List Nat) :
    EncST → List (List Nat) → EncST × List Nat
  | st, [] => (st, [])
  | st, c :: cs =>
    let r1 := encTransform A key ivs st c
    let r2 := runTransforms A key ivs r1.1 cs
    (r2.1, r1.2 ++ r2.2)

/-- Full output of the `EncryptionTransformer` pipeline on a stream of
plaintext chunks: `start` emits the signature, the salt and the encrypted
empty verification chunk (IV index 0), then each incoming chunk goes through
`transform`, and `flush` finishes. -/
def encryptStream {K : Type} (A : AEAD K) (dk : String → List Nat → K)
    (ivs : Nat → List Nat) (salt : List Nat) (password : String)
    (chunks : List (List Nat)) : List Nat :=
  let key := dk password salt
  let r := runTransforms A key ivs ⟨[], 1⟩ chunks
  sigBytes ++ salt ++ encChunkOut A key (ivs 0) [] ++ r.2 ++ encFlush A key ivs r.1

/-- Result of the `DecryptionSource` stream: `ok out` when the loop ends and
the controller is closed, `err out msg` when `controller.error` fires; `out`
is the plaintext enqueued before that point. -/
inductive DecResult where
  | ok (out : List Nat)
  | err (out : List Nat) (msg : String)
deriving DecidableEq

/-- Fuelled form of the `while (true)` chunk loop in
`DecryptionSource.readable`: fewer than 16 buffered bytes ends the stream
cleanly; otherwise read the 12-byte IV and 4-byte length, fail with
`"Corrupt chunk"` if the declared ciphertext is unavailable, decrypt, and
fail with `"Incorrect Password"` if authentication fails. -/
def decLoopGo {K : Type} (A : AEAD K) (key : K) : Nat → List Nat → List Nat → DecResult
  | 0, _, acc => .ok acc
  | fuel + 1, input, acc =>
    if input.length < 16 then .ok acc
    else
      let iv := input.take 12
      let lenVal := decodeLE32 ((input.drop 12).take 4)
      let rest := input.drop 16
      if rest.length < lenVal then .err acc "Corrupt chunk"
      else
        match A.dec key iv (rest.take lenVal) with
        | some plain => decLoopGo A key fuel (rest.drop lenVal) (acc ++ plain)
        | none => .err acc "Incorrect Password"

/-- The decryption chunk loop with enough fuel to run to completion. -/
def decLoop {K : Type} (A : AEAD K) (key : K) (input : List Nat) (acc : List Nat) : DecResult :=
  decLoopGo A key (input.length + 1) input acc

/-- `DecryptionSource.readable` on a complete input byte stream: require 22
bytes, check the signature, read the salt, derive the key, then run the
chunk loop. -/
def decryptStream {K : Type} (A : AEAD K) (dk : String → List Nat → K)
    (password : String) (input : List Nat) : DecResult :=
  if input.length < 22 then .err [] "File too small"
  else if input.take 6 ≠ sigBytes then .err [] "Not an encrypted archive"
  else decLoop A (dk password ((input.drop 6).take 16)) (input.drop 22) []

/-- Repeatedly slicing leading 4 MiB chunks off a buffer: the list of full
chunks and the residue shorter than one chunk.  This is the reference
description of what the `transform` loop cuts; `encDrainGo_spec` below ties
it to `encDrainGo`. -/
def chopChunks (buf : List Nat) : List (List Nat) × List Nat :=
  if h : CHUNK_SIZE ≤ buf.length then
    let r := chopChunks (buf.drop CHUNK_SIZE)
    (buf.take CHUNK_SIZE :: r.1, r.2)
  else ([], buf)
termination_by buf.length
decreasing_by simp only [List.length_drop]; simp only [CHUNK_SIZE] at h ⊢; omega

/-- The byte stream produced by encrypting a list of plaintext chunks with
consecutive IV indices starting at `c`. -/
def encChunks {K : Type} (A : AEAD K) (key : K) (ivs : Nat → List Nat) :
    Nat → List (List Nat) → List Nat
  | _, [] => []
  | c, m :: ms => encChunkOut A key (ivs c) m ++ encChunks A key ivs (c + 1) ms

/-! ## Container codec (tar) — writer side -/

/-- Fuelled base-8 digit expansion, most significant digit first, as ASCII
bytes; mirrors `num.toString(8)` for positive numbers.  Fuel `n` suffices
because the argument strictly decreases under division by 8. -/
def octDigitsGo : Nat → Nat → List Nat
  | 0, _ => []
  | fuel + 1, n => if n = 0 then [] else octDigitsGo fuel (n / 8) ++ [48 + n % 8]

/-- `num.toString(8)` as ASCII bytes. -/
def octDigits (n : Nat) : List Nat :=
  if n = 0 then [48] else octDigitsGo n n

/-- `num.toString(8).padStart(w, "0")` as ASCII bytes: left-pad with `"0"` up
to width `w` (no truncation — `padStart` never shortens). -/
def octPad (w n : Nat) : List Nat :=
  List.replicate (w - (octDigits n).length) 48 ++ octDigits n

/-- The `writeStr` helper of `createTarHeader`: overwrite
`buf[offset .. offset + min len bs.length)` with the leading bytes of `bs`,
leaving the rest of the buffer unchanged. -/
def writeStr (buf bs : List Nat) (offset len : Nat) : List Nat :=
  buf.take offset ++ bs.take (min len bs.length) ++ buf.drop (offset + min len bs.length)

/-- The `writeOctal` helper: write the octal digits padded to `len - 1`
characters at `offset`, leaving the final byte of the field untouched. -/
def writeOctal (buf : List Nat) (n offset len : Nat) : List Nat :=
  writeStr buf (octPad (len - 1) n) offset (len - 1)

/-- `filename.lastIndexOf("/", pos)` on byte lists: the largest index
`i ≤ pos` (and `i < length`) whose byte equals `b`, or `none`. -/
def lastIndexOfLe (l : List Nat) (b : Nat) (pos : Nat) : Option Nat :=
  ((List.range (min (pos + 1) l.length)).filter fun i => l.getD i 0 == b).getLast?

/-- The long-name split at the top of `createTarHeader`: for a path longer
than 100, split at the last `/` at or before offset 154 provided it is not
too far left, else fall back to a raw split 100 from the end; returns
`(name, prefixPart)`.  In the source these `length`, `lastIndexOf` and
`slice` operations run on the JavaScript string — UTF-16 code units —
before `TextEncoder`; this byte-list embedding is exact precisely for ASCII
paths (code units = bytes, encoder the identity), which is why the
round-trip theorems carry the `goodPath` ASCII restriction. -/
def splitPath (filename : List Nat) : List Nat × List Nat :=
  if 100 < filename.length then
    let si :=
      match lastIndexOfLe filename 47 154 with
      | none => filename.length - 100
      | some i => if i < filename.length - 100 then filename.length - 100 else i
    let pfx := filename.take si
    (filename.drop (si + (if pfx.isEmpty then 0 else 1)), pfx)
  else (filename, [])

/-- `createTarHeader(filename, size, isDir)`: build the 512-byte USTAR header
by sequential field writes, then sum all 512 bytes and write the checksum.
`mtime` stands for `Math.floor(Date.now() / 1000)`, an ambient input. -/
def createTarHeader (filename : List Nat) (size : Nat) (isDir : Bool) (mtime : Nat) : List Nat :=
  let np := splitPath filename
  let b0 : List Nat := List.replicate 512 0
  let b1 := writeStr b0 np.1 0 100
  let b2 := writeOctal b1 436 100 8
  let b3 := writeOctal b2 0 108 8
  let b4 := writeOctal b3 0 116 8
  let b5 := writeOctal b4 size 124 12
  let b6 := writeOctal b5 mtime 136 12
  let b7 := writeStr b6 (List.replicate 8 32) 148 8
  let b8 := writeStr b7 [if isDir then 53 else 48] 156 1
  let b9 := writeStr b8 [117, 115, 116, 97, 114] 257 6
  let b10 := writeStr b9 [48, 48] 263 2
  let b11 := if np.2.isEmpty then b10 else writeStr b10 np.2 345 155
  writeOctal b11 b11.sum 148 7

/-- A field of width `w`: the written bytes (clipped to `w`) followed by the
zero bytes of the buffer that were not overwritten. -/
def fieldZ (w : Nat) (bs : List Nat) : List Nat :=
  bs.take w ++ List.replicate (w - bs.length) 0

/-- Closed form of header bytes 0–147 (name, mode, uid, gid, size, mtime),
derived from the sequential writes of `createTarHeader`; the equivalence is
proved in `createTarHeader_eq` below. -/
def headerLow (name : List Nat) (size mtime : Nat) : List Nat :=
  fieldZ 100 name ++ (fieldZ 7 (octPad 7 436) ++ ([0] ++ (fieldZ 7 (octPad 7 0) ++
    ([0] ++ (fieldZ 7 (octPad 7 0) ++ ([0] ++ (fieldZ 11 (octPad 11 size) ++
      ([0] ++ (fieldZ 11 (octPad 11 mtime) ++ [0])))))))))

/-- Closed form of header bytes 156–511 (type flag, magic, version, prefix),
derived from the sequential writes of `createTarHeader`. -/
def headerHigh (pfx : List Nat) (isDir : Bool) : List Nat :=
  fieldZ 1 [if isDir then 53 else 48] ++ (List.replicate 100 0 ++
    (fieldZ 6 [117, 115, 116, 97, 114] ++ (fieldZ 2 [48, 48] ++
      (List.replicate 80 0 ++ (fieldZ 155 pfx ++ List.replicate 12 0)))))

/-- Closed form of the 512-byte header as it stands when the checksum sum is
taken: the checksum field still holds its eight-space placeholder. -/
def headerPre (name pfx : List Nat) (size mtime : Nat) (isDir : Bool) : List Nat :=
  headerLow name size mtime ++ (List.replicate 8 32 ++ headerHigh pfx isDir)

/-- State of a `TarWriter`: bytes written so far and the `pos` cursor. -/
structure TarW where
  out : List Nat
  pos : Nat

/-- `TarWriter.write`: emit a chunk and advance the cursor. -/
def twWrite (w : TarW) (chunk : List Nat) : TarW :=
  ⟨w.out ++ chunk, w.pos + chunk.length⟩

/-- `TarWriter.pad`: zero-fill to the next 512-byte boundary. -/
def twPad (w : TarW) : TarW :=
  let padding := (512 - w.pos % 512) % 512
  if 0 < padding then twWrite w (List.replicate padding 0) else w

/-- `TarWriter.writeEntry(path, data)` for byte data: header, payload, pad. -/
def twWriteEntry (w : TarW) (path data : List Nat) (mtime : Nat) : TarW :=
  twPad (twWrite (twWrite w (createTarHeader path data.length false mtime)) data)

/-- `TarWriter.close`: the 1024-byte end-of-archive marker. -/
def twClose (w : TarW) : TarW :=
  twWrite w (List.replicate 1024 0)

/-- Encoding a list of `(path, payload)` entries with a fresh `TarWriter`:
`writeEntry` for each, then `close`. -/
def tarEncode (entries : List (List Nat × List Nat)) (mtime : Nat) : List Nat :=
  (twClose (entries.foldl (fun w e => twWriteEntry w e.1 e.2 mtime) ⟨[], 0⟩)).out

/-- The bytes one `writeEntry` call appends when the writer is 512-aligned:
header, payload, zero padding to the next 512-byte boundary. -/
def entryBlock (path data : List Nat) (mtime : Nat) : List Nat :=
  createTarHeader path data.length false mtime ++
    (data ++ List.replicate ((512 - data.length % 512) % 512) 0)

/-- A path the container codec round-trips exactly: every byte is a non-NUL
ASCII byte, and either the path fits the 100-byte name field or the
long-name split lands on a `/` (some separator at or before offset 154 and
at or after `length - 100`).  The ASCII bound is essential: `createTarHeader`
runs `length`, `lastIndexOf` and `slice` on the JavaScript string — UTF-16
code units — before `TextEncoder`, so only for ASCII paths (code units =
bytes, and the encoder is the identity) does the byte-level `splitPath`
coincide with the source; a non-ASCII path can exceed 100 bytes yet stay at
or under 100 code units, in which case the code never splits and `writeStr`
silently truncates the name field. -/
def goodPath (p : List Nat) : Prop :=
  (∀ b ∈ p, b ≠ 0 ∧ b < 128) ∧
  (p.length ≤ 100 ∨
    ∃ i, lastIndexOfLe p 47 154 = some i ∧ p.length - 100 ≤ i)

/-! ## Container codec — reader side (the tar loop inside `importData`) -/

/-- Whitespace bytes skipped by JavaScript `parseInt` (and `trim`). -/
def isJsSpace (b : Nat) : Bool :=
  b == 32 || b == 9 || b == 10 || b == 11 || b == 12 || b == 13

/-- An ASCII octal digit `0`–`7`. -/
def isOctDigit (b : Nat) : Bool :=
  48 ≤ b && b ≤ 55

/-- The unsigned octal reading of a field: skip leading whitespace, read the
longest run of octal digits, `none` when there is no digit.  The import loop
itself only ever parses the size field (see `parseSizeField`); the checksum
field is never read back by the importer, so this is the spec-level decode
of the checksum digits the writer stores. -/
def parseOctalField (bs : List Nat) : Option Nat :=
  let ds := (bs.dropWhile isJsSpace).takeWhile isOctDigit
  if ds.isEmpty then none
  else some (ds.foldl (fun a b => a * 8 + (b - 48)) 0)

/-- `parseInt(DEC.decode(field).trim(), 8)` and the `isNaN` gate, for fields
of ASCII bytes (on which `TextDecoder` is the identity and `trim` removes
only what `parseInt` skips anyway): skip whitespace, consume at most one
leading `+` or `-` sign, then read the longest run of octal digits; `none`
(NaN) exactly when no digit follows the optional sign, otherwise the signed
value — `parseInt("-5", 8)` is `-5`, not NaN. -/
def parseSizeField (bs : List Nat) : Option Int :=
  let s := bs.dropWhile isJsSpace
  let body := if s.head? = some 43 ∨ s.head? = some 45 then s.tail else s
  let ds := body.takeWhile isOctDigit
  if ds.isEmpty then none
  else
    let v : Int := (ds.foldl (fun a b => a * 8 + (b - 48)) 0 : Nat)
    if s.head? = some 45 then some (-v) else some v

/-- One pass of `replace(/\0.*/g, "")` over the decoded field: outside a
match a NUL starts deleting; inside a match bytes are deleted up to (not
including) the next line terminator, since `.` does not match `\n` or
`\r`. -/
def stripNulGo : Bool → List Nat → List Nat
  | _, [] => []
  | true, b :: bs =>
    if b = 10 ∨ b = 13 then b :: stripNulGo false bs else stripNulGo true bs
  | false, b :: bs =>
    if b = 0 then stripNulGo true bs else b :: stripNulGo false bs

/-- `str.replace(/\0.*/g, "")` on a field of ASCII bytes. -/
def stripFromNul (bs : List Nat) : List Nat := stripNulGo false bs

/-- Decoded `name` field: bytes 0–99 with every NUL-to-end-of-line run
removed (`replace(/\0.*/g, "")`). -/
def decodeNameField (hdr : List Nat) : List Nat :=
  stripFromNul (hdr.take 100)

/-- Decoded `prefix` field: bytes 345–499, same NUL stripping. -/
def decodePrefixField (hdr : List Nat) : List Nat :=
  stripFromNul ((hdr.drop 345).take 155)

/-- The joined path: `` `${prefix}/${name}` `` when the prefix is non-empty. -/
def decodedPath (hdr : List Nat) : List Nat :=
  let p := decodePrefixField hdr
  if p.isEmpty then decodeNameField hdr else p ++ 47 :: decodeNameField hdr

/-- Decoded `size` field: bytes 124–135 through `parseInt(·, 8)` with its
sign handling. -/
def decodeSizeField (hdr : List Nat) : Option Int :=
  parseSizeField ((hdr.drop 124).take 12)

/-- Decoded checksum field: bytes 148–155 as octal. -/
def decodeChecksumField (hdr : List Nat) : Option Nat :=
  parseOctalField ((hdr.drop 148).take 8)

/-- The header with its checksum field blanked to the eight ASCII spaces, as
it stands when the checksum sum is computed. -/
def blankChecksum (hdr : List Nat) : List Nat :=
  hdr.take 148 ++ List.replicate 8 32 ++ hdr.drop 156

/-- A decoded archive entry: joined path, decoded size (a JavaScript number,
possibly negative because `parseInt` reads a sign), payload bytes. -/
abbrev TarEntry := List Nat × Int × List Nat

/-- Outcome of the import tar loop: the decoded entries in order, or the
message of the error that aborted the loop. -/
inductive TarResult where
  | ok (entries : List TarEntry)
  | error (msg : String)
deriving DecidableEq

/-- UTF-8 bytes of `"data/"`, the prefix dispatched to in-memory handling. -/
def dataPrefixBytes : List Nat := [100, 97, 116, 97, 47]

/-- `(512 - (size % 512)) % 512` with JavaScript's truncating `%` (sign of
the dividend, `Int.tmod`); the result is in `[0, 512)`, so the final value
is a `Nat`. -/
def jsPadding (size : Int) : Nat :=
  ((512 - Int.tmod size 512).tmod 512).toNat

/-- Where `consume(size)` / `streamToFile(·, size)` split the buffered rest
of the stream: at `size` for a non-negative size (`slice(0, size)` /
`Math.min` clamping), and at `length + size` clamped at 0 for a negative
one (JavaScript `slice`'s negative indexing). -/
def consumeCount (restLen : Nat) (size : Int) : Nat :=
  if 0 ≤ size then size.toNat else ((restLen : Int) + size).toNat

/-- Fuelled form of the `while (true)` tar-parsing loop in `importData`,
with the pull-based `reader`/`buffer` pair modelled as the flat remaining
input (the source delivered in one chunk): `ensure n` is `n ≤ length`,
`consume`/`skipBytes`/`streamToFile` are take/drop splits at
`consumeCount`.  Fewer than 512 bytes ends cleanly (`ensure` fails →
`break`); an all-zero header ends cleanly; decode name, prefix and size; a
non-numeric size ends cleanly (`isNaN` → `break`); a size-0 entry is
recorded and skipped (`continue`); a `data/` entry is materialised with
`readToMemory`, which fails with `"Unexpected EOF in system file"` when
fewer than `size` bytes remain; any other entry is streamed leniently
(`streamToFile` stops silently at end of source).  Each iteration consumes
at least 512 bytes, so fuel `input.length + 1` always suffices. -/
def parseTarGo : Nat → List Nat → TarResult
  | 0, _ => .ok []
  | fuel + 1, input =>
    if input.length < 512 then .ok []
    else
      let header := input.take 512
      if header.all (· = 0) then .ok []
      else
        let name := decodedPath header
        match decodeSizeField header with
        | none => .ok []
        | some size =>
          let padding := jsPadding size
          let rest := input.drop 512
          if size = 0 then
            match parseTarGo fuel (rest.drop padding) with
            | .ok es => .ok ((name, size, []) :: es)
            | .error e => .error e
          else
            let m := consumeCount rest.length size
            if dataPrefixBytes.isPrefixOf name then
              if (rest.length : Int) < size then .error "Unexpected EOF in system file"
              else
                match parseTarGo fuel ((rest.drop m).drop padding) with
                | .ok es => .ok ((name, size, rest.take m) :: es)
                | .error e => .error e
            else
              match parseTarGo fuel ((rest.drop m).drop padding) with
              | .ok es => .ok ((name, size, rest.take m) :: es)
              | .error e => .error e

/-- The tar-parsing loop with enough fuel to run to completion. -/
def parseTarLoop (input : List Nat) : TarResult :=
  parseTarGo (input.length + 1) input

/-! ## Export filter -/

/-- The `include` / `exclude` maps of the export configuration: a category
name maps to an optional list of target paths (`none` models an absent
key). -/
structure FilterConfig where
  excludeC : String → Option (List (List Nat))
  includeC : String → Option (List (List Nat))

/-- `isAllowed(category, path, config)`: an exclude hit (equal to a target or
under it) rejects; otherwise a non-empty include list must be matched;
otherwise allow. -/
def isAllowed (category : String) (path : List Nat) (cfg : FilterConfig) : Bool :=
  if ((cfg.excludeC category).getD []).any
      (fun t => path == t || (t ++ [47]).isPrefixOf path) then false
  else
    match cfg.includeC category with
    | some l =>
      if 0 < l.length then l.any (fun t => path == t || (t ++ [47]).isPrefixOf path)
      else true
    | none => true

/-! ## Import pipeline (format sniffing) -/

/-- The three mutually exclusive input formats of `importData`. -/
inductive ImportMode where
  | encrypted
  | gzipped
  | plain
deriving DecidableEq

/-- The header probe of `importData`: first 6 bytes equal to the encryption
signature, else gzip magic `0x1f 0x8b`, else a plain tar. -/
def sniffFormat (probe : List Nat) : ImportMode :=
  if probe.take 6 = sigBytes then .encrypted
  else if probe[0]?.getD 0 = 31 ∧ probe[1]?.getD 0 = 139 then .gzipped
  else .plain

/-- The `importData` pipeline down to decoded entries.  `gunzip` stands for
`DecompressionStream("gzip")`; the password is assumed supplied at the
prompt.  When decryption errors, the loop is torn down with that message
(the plaintext decrypted before the failure, `DecResult.err`'s payload, is
all the parser could have seen — for a wrong password it is empty). -/
def importEntries {K : Type} (A : AEAD K) (dk : String → List Nat → K)
    (gunzip : List Nat → List Nat) (password : String) (input : List Nat) : TarResult :=
  match sniffFormat (input.take 8) with
  | .encrypted =>
    match decryptStream A dk password input with
    | .ok pt => parseTarLoop (gunzip pt)
    | .err _ msg => .error msg
  | .gzipped => parseTarLoop (gunzip input)
  | .plain => parseTarLoop input

/-! ## Concrete cipher instance used by witnesses -/

/-- A toy tag: 15 zero bytes and the key, so ciphertexts are plaintext plus
16 bytes, as with AES-GCM. -/
def tagOf (k : Nat) : List Nat := List.replicate 15 0 ++ [k % 256]

/-- A concrete `AEAD` instance satisfying the round-trip, length and
authentication hypotheses of the theorems below. -/
def myAEAD : AEAD Nat where
  enc := fun k _ m => m ++ tagOf k
  dec := fun k _ c =>
    if 16 ≤ c.length ∧ c.drop (c.length - 16) = tagOf k then some (c.take (c.length - 16))
    else none

/-- A concrete key-derivation function distinguishing the two witness
passwords. -/
def myDK : String → List Nat → Nat := fun p _ => if p = "b" then 98 else 97

/-- A concrete IV stream (all IVs are 12 zero bytes). -/
def myIvs : Nat → List Nat := fun _ => List.replicate 12 0

/-- A concrete 16-byte salt. -/
def mySalt : List Nat := List.replicate 16 0

/-! ## Lemmas: little-endian length field -/

theorem decodeLE32_leBytes32 (n : Nat) (h : n < 4294967296) :
    decodeLE32 (leBytes32 n) = n := by
  simp only [decodeLE32, leBytes32, List.getD_cons_zero, List.getD_cons_succ]
  omega

theorem leBytes32_length (n : Nat) : (leBytes32 n).length = 4 := rfl

/-! ## Lemmas: the chunk-slicing reference function -/

theorem chopChunks_small {buf : List Nat} (h : buf.length < CHUNK_SIZE) :
    chopChunks buf = ([], buf) := by
  rw [chopChunks]
  simp only [dif_neg (by omega : ¬ CHUNK_SIZE ≤ buf.length)]

theorem chopChunks_step {buf : List Nat} (h : CHUNK_SIZE ≤ buf.length) :
    chopChunks buf =
      (buf.take CHUNK_SIZE :: (chopChunks (buf.drop CHUNK_SIZE)).1,
       (chopChunks (buf.drop CHUNK_SIZE)).2) := by
  conv_lhs => rw [chopChunks]
  simp only [dif_pos h]

theorem chopChunks_flatten (buf : List Nat) :
    (chopChunks buf).1.flatten ++ (chopChunks buf).2 = buf := by
  by_cases h : CHUNK_SIZE ≤ buf.length
  · rw [chopChunks_step h]
    simp only [List.flatten_cons, List.append_assoc]
    rw [chopChunks_flatten (buf.drop CHUNK_SIZE), List.take_append_drop]
  · rw [chopChunks_small (by omega)]
    simp
termination_by buf.length
decreasing_by simp only [List.length_drop]; simp only [CHUNK_SIZE] at h ⊢; omega

theorem chopChunks_res_length (buf : List Nat) :
    (chopChunks buf).2.length = buf.length % CHUNK_SIZE := by
  by_cases h : CHUNK_SIZE ≤ buf.length
  · rw [chopChunks_step h]
    have := chopChunks_res_length (buf.drop CHUNK_SIZE)
    simp only [List.length_drop] at this
    rw [this]
    simp only [CHUNK_SIZE] at h ⊢
    omega
  · rw [chopChunks_small (by omega)]
    simp only [CHUNK_SIZE] at h ⊢
    omega
termination_by buf.length
decreasing_by simp only [List.length_drop]; simp only [CHUNK_SIZE] at h ⊢; omega

theorem chopChunks_res_lt (buf : List Nat) :
    (chopChunks buf).2.length < CHUNK_SIZE := by
  rw [chopChunks_res_length]
  exact Nat.mod_lt _ (by simp [CHUNK_SIZE])

theorem chopChunks_mem {buf m : List Nat} (hm : m ∈ (chopChunks buf).1) :
    m.length = CHUNK_SIZE := by
  by_cases h : CHUNK_SIZE ≤ buf.length
  · rw [chopChunks_step h] at hm
    simp only [List.mem_cons] at hm
    rcases hm with hm | hm
    · subst hm
      simp only [List.length_take]
      omega
    · exact chopChunks_mem hm
  · rw [chopChunks_small (by omega)] at hm
    simp at hm
termination_by buf.length
decreasing_by simp only [List.length_drop]; simp only [CHUNK_SIZE] at h ⊢; omega

theorem chopChunks_append (x y : List Nat) :
    chopChunks (x ++ y) =
      ((chopChunks x).1 ++ (chopChunks ((chopChunks x).2 ++ y)).1,
       (chopChunks ((chopChunks x).2 ++ y)).2) := by
  by_cases h : CHUNK_SIZE ≤ x.length
  · have hxy : CHUNK_SIZE ≤ (x ++ y).length := by
      simp only [List.length_append]; omega
    rw [chopChunks_step hxy, chopChunks_step h]
    rw [List.take_append_of_le_length h, List.drop_append_of_le_length h]
    rw [chopChunks_append (x.drop CHUNK_SIZE) y]
    simp
  · rw [chopChunks_small (show x.length < CHUNK_SIZE by omega)]
    simp
termination_by x.length
decreasing_by simp only [List.length_drop]; simp only [CHUNK_SIZE] at h ⊢; omega

/-! ## Lemmas: the encryption side -/

theorem encChunks_append {K : Type} (A : AEAD K) (key : K) (ivs : Nat → List Nat)
    (c : Nat) (ms ns : List (List Nat)) :
    encChunks A key ivs c (ms ++ ns) =
      encChunks A key ivs c ms ++ encChunks A key ivs (c + ms.length) ns := by
  induction ms generalizing c with
  | nil => simp [encChunks]
  | cons m ms ih =>
    simp only [List.cons_append, encChunks, List.length_cons, List.append_assoc]
    have harith : c + (ms.length + 1) = c + 1 + ms.length := by omega
    rw [harith]
    exact congrArg _ (ih (c + 1))

theorem encDrainGo_spec {K : Type} (A : AEAD K) (key : K) (ivs : Nat → List Nat) :
    ∀ (fuel : Nat) (st : EncST), st.buffer.length < fuel →
      encDrainGo A key ivs fuel st =
        (⟨(chopChunks st.buffer).2, st.ctr + (chopChunks st.buffer).1.length⟩,
         encChunks A key ivs st.ctr (chopChunks st.buffer).1) := by
  intro fuel
  induction fuel with
  | zero => intro st h; omega
  | succ fuel ih =>
    intro st h
    simp only [encDrainGo]
    by_cases hc : CHUNK_SIZE ≤ st.buffer.length
    · rw [if_pos hc]
      rw [ih ⟨st.buffer.drop CHUNK_SIZE, st.ctr + 1⟩
        (by simp only [List.length_drop]; simp only [CHUNK_SIZE] at hc h ⊢; omega)]
      rw [chopChunks_step hc]
      simp only [encChunks, List.length_cons]
      have harith : st.ctr + 1 + (chopChunks (st.buffer.drop CHUNK_SIZE)).1.length =
          st.ctr + ((chopChunks (st.buffer.drop CHUNK_SIZE)).1.length + 1) := by omega
      rw [harith]
    · rw [if_neg hc, chopChunks_small (by omega)]
      simp [encChunks]

theorem encDrain_spec {K : Type} (A : AEAD K) (key : K) (ivs : Nat → List Nat) (st : EncST) :
    encDrain A key ivs st =
      (⟨(chopChunks st.buffer).2, st.ctr + (chopChunks st.buffer).1.length⟩,
       encChunks A key ivs st.ctr (chopChunks st.buffer).1) :=
  encDrainGo_spec A key ivs _ st (Nat.lt_succ_self _)

theorem runTransforms_spec {K : Type} (A : AEAD K) (key : K) (ivs : Nat → List Nat)
    (cs : List (List Nat)) :
    ∀ st : EncST, st.buffer.length < CHUNK_SIZE →
      runTransforms A key ivs st cs =
        (⟨(chopChunks (st.buffer ++ cs.flatten)).2,
          st.ctr + (chopChunks (st.buffer ++ cs.flatten)).1.length⟩,
         encChunks A key ivs st.ctr (chopChunks (st.buffer ++ cs.flatten)).1) := by
  induction cs with
  | nil =>
    intro st hst
    simp only [runTransforms, List.flatten_nil, List.append_nil]
    rw [chopChunks_small hst]
    simp [encChunks]
  | cons c cs ih =>
    intro st hst
    simp only [runTransforms, encTransform, encDrain_spec]
    rw [ih ⟨(chopChunks (st.buffer ++ c)).2,
          st.ctr + (chopChunks (st.buffer ++ c)).1.length⟩
        (chopChunks_res_lt _)]
    have hsplit : st.buffer ++ (c :: cs).flatten = (st.buffer ++ c) ++ cs.flatten := by
      simp [List.flatten_cons]
    rw [hsplit, chopChunks_append (st.buffer ++ c) cs.flatten]
    simp only [encChunks_append, List.length_append]
    have harith : st.ctr + (chopChunks (st.buffer ++ c)).1.length +
        (chopChunks ((chopChunks (st.buffer ++ c)).2 ++ cs.flatten)).1.length =
        st.ctr + ((chopChunks (st.buffer ++ c)).1.length +
          (chopChunks ((chopChunks (st.buffer ++ c)).2 ++ cs.flatten)).1.length) := by omega
    rw [harith]

/-- The full encrypted stream in closed form: signature, salt, then the
encrypted sequence consisting of the empty verification chunk, one chunk per
full 4 MiB slice of the concatenated plaintext, and — only when the residue
is non-empty — a final short chunk from the flush output. -/
theorem encryptStream_eq {K : Type} (A : AEAD K) (dk : String → List Nat → K)
    (ivs : Nat → List Nat) (salt : List Nat) (p : String) (chunks : List (List Nat)) :
    encryptStream A dk ivs salt p chunks =
      sigBytes ++ salt ++
        encChunks A (dk p salt) ivs 0
          ([] :: ((chopChunks chunks.flatten).1 ++
            (if (chopChunks chunks.flatten).2.isEmpty then []
             else [(chopChunks chunks.flatten).2]))) := by
  simp only [encryptStream]
  rw [runTransforms_spec A (dk p salt) ivs chunks ⟨[], 1⟩ (by simp [CHUNK_SIZE])]
  simp only [List.nil_append, encFlush, encChunks, encChunks_append]
  by_cases hres : (chopChunks chunks.flatten).2 = []
  · rw [hres]
    simp [encChunks]
  · rw [if_pos (by simp [List.length_pos, hres]),
      if_neg (by simp [List.isEmpty_iff, hres])]
    simp [encChunks, List.append_assoc]

/-! ## Lemmas: the decryption side -/

theorem decLoopGo_congr {K : Type} (A : AEAD K) (key : K) :
    ∀ (f g : Nat) (input acc : List Nat), input.length < f → input.length < g →
      decLoopGo A key f input acc = decLoopGo A key g input acc := by
  intro f
  induction f with
  | zero => intro g input acc hf _; omega
  | succ f ih =>
    intro g input acc hf hg
    cases g with
    | zero => omega
    | succ g =>
      simp only [decLoopGo]
      by_cases h16 : input.length < 16
      · simp [h16]
      · rw [if_neg h16, if_neg h16]
        by_cases hcor : (input.drop 16).length < decodeLE32 ((input.drop 12).take 4)
        · rw [if_pos hcor, if_pos hcor]
        · rw [if_neg hcor, if_neg hcor]
          cases hdec : A.dec key (input.take 12)
              ((input.drop 16).take (decodeLE32 ((input.drop 12).take 4))) with
          | none => simp only [hdec]
          | some plain =>
            simp only [hdec]
            exact ih g _ _
              (by simp only [List.length_drop]; omega)
              (by simp only [List.length_drop]; omega)

/-- The natural recurrence of the decryption chunk loop. -/
theorem decLoop_eq {K : Type} (A : AEAD K) (key : K) (input acc : List Nat) :
    decLoop A key input acc =
      if input.length < 16 then .ok acc
      else if (input.drop 16).length < decodeLE32 ((input.drop 12).take 4) then
        .err acc "Corrupt chunk"
      else
        match A.dec key (input.take 12)
            ((input.drop 16).take (decodeLE32 ((input.drop 12).take 4))) with
        | some plain =>
          decLoop A key ((input.drop 16).drop (decodeLE32 ((input.drop 12).take 4)))
            (acc ++ plain)
        | none => .err acc "Incorrect Password" := by
  unfold decLoop
  conv_lhs => simp only [decLoopGo]
  by_cases h16 : input.length < 16
  · rw [if_pos h16, if_pos h16]
  · rw [if_neg h16, if_neg h16]
    by_cases hcor : (input.drop 16).length < decodeLE32 ((input.drop 12).take 4)
    · rw [if_pos hcor, if_pos hcor]
    · rw [if_neg hcor, if_neg hcor]
      cases hdec : A.dec key (input.take 12)
          ((input.drop 16).take (decodeLE32 ((input.drop 12).take 4))) with
      | none => simp only [hdec]
      | some plain =>
        simp only [hdec]
        exact decLoopGo_congr A key _ _ _ _
          (by simp only [List.length_drop]; omega) (Nat.lt_succ_self _)

theorem decLoop_done {K : Type} (A : AEAD K) (key : K) (input acc : List Nat)
    (h : input.length < 16) : decLoop A key input acc = .ok acc := by
  rw [decLoop_eq, if_pos h]

/-- One complete framed chunk at the head of the input: the loop reads the
IV, the length field and the ciphertext, then decrypts. -/
theorem decLoop_cons {K : Type} (A : AEAD K) (key : K) (iv ct rest acc : List Nat)
    (h12 : iv.length = 12) (hlt : ct.length < 4294967296) :
    decLoop A key (iv ++ (leBytes32 ct.length ++ (ct ++ rest))) acc =
      match A.dec key iv ct with
      | some plain => decLoop A key rest (acc ++ plain)
      | none => .err acc "Incorrect Password" := by
  have hassoc : iv ++ (leBytes32 ct.length ++ (ct ++ rest)) =
      (iv ++ leBytes32 ct.length) ++ (ct ++ rest) := by
    simp [List.append_assoc]
  have hlen16 : (iv ++ leBytes32 ct.length).length = 16 := by
    simp [h12, leBytes32]
  have htot : ¬ (iv ++ (leBytes32 ct.length ++ (ct ++ rest))).length < 16 := by
    simp [h12, leBytes32]
    omega
  have htake12 : (iv ++ (leBytes32 ct.length ++ (ct ++ rest))).take 12 = iv :=
    List.take_left' h12
  have hdrop12 : (iv ++ (leBytes32 ct.length ++ (ct ++ rest))).drop 12 =
      leBytes32 ct.length ++ (ct ++ rest) := List.drop_left' h12
  have htake4 : (leBytes32 ct.length ++ (ct ++ rest)).take 4 = leBytes32 ct.length :=
    List.take_left' (leBytes32_length _)
  have hdrop16 : (iv ++ (leBytes32 ct.length ++ (ct ++ rest))).drop 16 = ct ++ rest := by
    rw [hassoc]
    exact List.drop_left' hlen16
  rw [decLoop_eq, if_neg htot, hdrop16, hdrop12, htake4, htake12,
    decodeLE32_leBytes32 _ hlt]
  rw [if_neg (by simp), List.take_left' rfl, List.drop_left' rfl]

/-- A well-formed sequence of encrypted chunks decrypts, under the matching
key, to the concatenation of the chunk plaintexts. -/
theorem decLoop_encChunks {K : Type} (A : AEAD K) (key : K) (ivs : Nat → List Nat)
    (hiv : ∀ n, (ivs n).length = 12)
    (hround : ∀ iv m, A.dec key iv (A.enc key iv m) = some m)
    (hlen : ∀ iv m, (A.enc key iv m).length = m.length + 16) :
    ∀ (ms : List (List Nat)) (c : Nat) (acc : List Nat),
      (∀ m ∈ ms, m.length + 16 < 4294967296) →
      decLoop A key (encChunks A key ivs c ms) acc = .ok (acc ++ ms.flatten) := by
  intro ms
  induction ms with
  | nil =>
    intro c acc _
    simp only [encChunks]
    rw [decLoop_done A key _ _ (by simp)]
    simp
  | cons m ms ih =>
    intro c acc hsz
    simp only [encChunks, encChunkOut, List.append_assoc]
    rw [hlen (ivs c) m]
    have hct : (A.enc key (ivs c) m).length < 4294967296 := by
      rw [hlen (ivs c) m]
      exact hsz m (List.mem_cons_self m ms)
    rw [show m.length + 16 = (A.enc key (ivs c) m).length by rw [hlen (ivs c) m]]
    rw [decLoop_cons A key _ _ _ _ (hiv c) hct]
    simp only [hround (ivs c) m]
    rw [ih (c + 1) (acc ++ m) (fun x hx => hsz x (List.mem_cons_of_mem _ hx))]
    simp

/-- Parsing the fixed header of an encrypted stream: signature check and
salt extraction, leaving the chunk loop on the body. -/
theorem decryptStream_header {K : Type} (A : AEAD K) (dk : String → List Nat → K)
    (pw : String) (salt body : List Nat) (hsalt : salt.length = 16) :
    decryptStream A dk pw (sigBytes ++ (salt ++ body)) = decLoop A (dk pw salt) body [] := by
  unfold decryptStream
  have hassoc : sigBytes ++ (salt ++ body) = (sigBytes ++ salt) ++ body := by
    simp [List.append_assoc]
  have hsig6 : (sigBytes : List Nat).length = 6 := rfl
  have hlen22 : (sigBytes ++ salt).length = 22 := by simp [hsalt, sigBytes]
  have htot : ¬ (sigBytes ++ (salt ++ body)).length < 22 := by
    simp [hsalt, sigBytes]
  have htake6 : (sigBytes ++ (salt ++ body)).take 6 = sigBytes := List.take_left' hsig6
  have hdrop6 : (sigBytes ++ (salt ++ body)).drop 6 = salt ++ body := List.drop_left' hsig6
  have hdrop22 : (sigBytes ++ (salt ++ body)).drop 22 = body := by
    rw [hassoc]
    exact List.drop_left' hlen22
  rw [if_neg htot, if_neg (by simp [htake6]), hdrop6, hdrop22, List.take_left' hsalt]

/-- The plaintexts of the chunk sequence actually emitted for a plaintext
stream flatten back to that plaintext. -/
theorem emitted_chunks_flatten (buf : List Nat) :
    (([] : List Nat) ::
        ((chopChunks buf).1 ++
          (if (chopChunks buf).2.isEmpty then [] else [(chopChunks buf).2]))).flatten = buf := by
  by_cases hres : (chopChunks buf).2 = []
  · have h := chopChunks_flatten buf
    rw [hres, List.append_nil] at h
    simp [hres, h]
  · have h := chopChunks_flatten buf
    simp [List.isEmpty_iff, hres]
    simpa using h

theorem decLoop_truncated {K : Type} (A : AEAD K) (key : K) (ivs : Nat → List Nat)
    (hiv : ∀ n, (ivs n).length = 12)
    (hround : ∀ iv m, A.dec key iv (A.enc key iv m) = some m)
    (hlen : ∀ iv m, (A.enc key iv m).length = m.length + 16) :
    ∀ (ms : List (List Nat)) (c : Nat) (acc : List Nat) (u : Nat),
      (∀ m ∈ ms, m.length + 16 < 4294967296) →
      ∃ ks : List (List Nat), ks <+: ms ∧
        (decLoop A key ((encChunks A key ivs c ms).take u) acc = .ok (acc ++ ks.flatten) ∨
         decLoop A key ((encChunks A key ivs c ms).take u) acc =
           .err (acc ++ ks.flatten) "Corrupt chunk") := by
  intro ms
  induction ms with
  | nil =>
    intro c acc u _
    refine ⟨[], List.nil_prefix, Or.inl ?_⟩
    simp only [encChunks, List.take_nil]
    rw [decLoop_done A key _ _ (by simp)]
    simp
  | cons m ms ih =>
    intro c acc u hsz
    have hm32 : m.length + 16 < 4294967296 := hsz m (List.mem_cons_self m ms)
    have hctlen : (A.enc key (ivs c) m).length = m.length + 16 := hlen (ivs c) m
    have hchlen : (encChunkOut A key (ivs c) m).length = m.length + 32 := by
      simp [encChunkOut, leBytes32, hiv c, hctlen]
      omega
    by_cases hu : (encChunkOut A key (ivs c) m).length ≤ u
    · -- the first chunk is wholly inside the prefix
      obtain ⟨ks, hks, hres⟩ := ih (c + 1) (acc ++ m) (u - (encChunkOut A key (ivs c) m).length)
        (fun x hx => hsz x (List.mem_cons_of_mem _ hx))
      refine ⟨m :: ks, List.cons_prefix_cons.mpr ⟨rfl, hks⟩, ?_⟩
      have htake : (encChunks A key ivs c (m :: ms)).take u =
          encChunkOut A key (ivs c) m ++
            (encChunks A key ivs (c + 1) ms).take (u - (encChunkOut A key (ivs c) m).length) := by
        simp only [encChunks]
        rw [List.take_append_eq_append_take, List.take_of_length_le hu]
      rw [htake]
      have hsplit : encChunkOut A key (ivs c) m ++
          (encChunks A key ivs (c + 1) ms).take (u - (encChunkOut A key (ivs c) m).length) =
          ivs c ++ (leBytes32 (A.enc key (ivs c) m).length ++
            (A.enc key (ivs c) m ++
              (encChunks A key ivs (c + 1) ms).take (u - (encChunkOut A key (ivs c) m).length))) := by
        simp [encChunkOut, List.append_assoc]
      rw [hsplit, decLoop_cons A key _ _ _ _ (hiv c) (by omega)]
      simp only [hround (ivs c) m]
      rcases hres with hres | hres
      · exact Or.inl (by rw [hres]; simp)
      · exact Or.inr (by rw [hres]; simp)
    · -- the cut falls inside the first chunk
      push_neg at hu
      have htake : (encChunks A key ivs c (m :: ms)).take u =
          (encChunkOut A key (ivs c) m).take u := by
        simp only [encChunks]
        rw [List.take_append_eq_append_take,
          show u - (encChunkOut A key (ivs c) m).length = 0 by omega,
          List.take_zero, List.append_nil]
      have hulen : ((encChunkOut A key (ivs c) m).take u).length = u := by
        simp only [List.length_take]
        omega
      by_cases h16 : u < 16
      · refine ⟨[], List.nil_prefix, Or.inl ?_⟩
        rw [htake, decLoop_done A key _ _ (by omega)]
        simp
      · refine ⟨[], List.nil_prefix, Or.inr ?_⟩
        rw [htake, decLoop_eq, if_neg (by omega)]
        have hd12 : ((encChunkOut A key (ivs c) m).take u).drop 12 =
            ((encChunkOut A key (ivs c) m).drop 12).take (u - 12) := List.drop_take ..
        have hd12v : (encChunkOut A key (ivs c) m).drop 12 =
            leBytes32 (A.enc key (ivs c) m).length ++ A.enc key (ivs c) m := by
          simp only [encChunkOut, List.append_assoc]
          rw [List.drop_left' (hiv c)]
        have htk4 : (((encChunkOut A key (ivs c) m).drop 12).take (u - 12)).take 4 =
            leBytes32 (A.enc key (ivs c) m).length := by
          rw [List.take_take, show min 4 (u - 12) = 4 by omega, hd12v]
          exact List.take_left' (leBytes32_length _)
        rw [if_pos ?side]
        case side =>
          rw [hd12, htk4, decodeLE32_leBytes32 _ (by omega)]
          simp only [List.length_drop, hulen, hctlen]
          omega
        simp

/-- With fewer than 512 bytes available, `ensure(512)` fails and the tar loop
breaks cleanly. -/
theorem parseTarGo_small {input : List Nat} (fuel : Nat) (h : input.length < 512) :
    parseTarGo (fuel + 1) input = .ok [] := by
  simp only [parseTarGo]
  rw [if_pos h]

theorem parseTarLoop_small {input : List Nat} (h : input.length < 512) :
    parseTarLoop input = .ok [] :=
  parseTarGo_small _ h

/-! ## Lemmas: the concrete cipher instance -/

theorem myAEAD_enc_length (k : Nat) (iv m : List Nat) :
    (myAEAD.enc k iv m).length = m.length + 16 := by
  simp [myAEAD, tagOf]

theorem myAEAD_round (k : Nat) (iv m : List Nat) :
    myAEAD.dec k iv (myAEAD.enc k iv m) = some m := by
  have hlen : (m ++ tagOf k).length = m.length + 16 := by simp [tagOf]
  have hsub : (m ++ tagOf k).length - 16 = m.length := by omega
  have hcond : 16 ≤ (m ++ tagOf k).length ∧
      (m ++ tagOf k).drop ((m ++ tagOf k).length - 16) = tagOf k := by
    refine ⟨by omega, ?_⟩
    rw [hsub]
    exact List.drop_left m (tagOf k)
  simp only [myAEAD]
  rw [if_pos hcond, hsub, List.take_left]

theorem myAEAD_auth (iv m : List Nat) :
    myAEAD.dec 98 iv (myAEAD.enc 97 iv m) = none := by
  have hlen : (m ++ tagOf 97).length = m.length + 16 := by simp [tagOf]
  have hsub : (m ++ tagOf 97).length - 16 = m.length := by omega
  have hneg : ¬ (16 ≤ (m ++ tagOf 97).length ∧
      (m ++ tagOf 97).drop ((m ++ tagOf 97).length - 16) = tagOf 98) := by
    rintro ⟨-, hdrop⟩
    rw [hsub, List.drop_left m (tagOf 97)] at hdrop
    exact absurd hdrop (by decide)
  simp only [myAEAD]
  rw [if_neg hneg]

/-- Every plaintext in the emitted chunk sequence is at most one 4 MiB chunk,
so its ciphertext length fits the 32-bit length field. -/
theorem emitted_chunks_size (buf : List Nat) :
    ∀ m ∈ ([] : List Nat) ::
        ((chopChunks buf).1 ++
          (if (chopChunks buf).2.isEmpty then [] else [(chopChunks buf).2])),
      m.length + 16 < 4294967296 := by
  intro m hm
  rcases List.mem_cons.mp hm with hm | hm
  · subst hm
    simp
  · rcases List.mem_append.mp hm with hm | hm
    · have := chopChunks_mem hm
      simp only [CHUNK_SIZE] at this
      omega
    · by_cases hres : (chopChunks buf).2.isEmpty
      · simp [hres] at hm
      · simp [hres] at hm
        subst hm
        have := chopChunks_res_lt buf
        simp only [CHUNK_SIZE] at this
        omega

/-! ## Claim theorems: the cipher layer -/

/-- C1: piping any plaintext (delivered as any sequence of stream chunks)
through the Chunked Cipher Writer and then through the Chunked Cipher Reader
with the same password yields exactly the original plaintext — including the
empty plaintext and plaintexts spanning several 4 MiB chunks — and the
leading verification chunk contributes no bytes to the output. -/
theorem C1_cipher_roundtrip {K : Type} (A : AEAD K) (dk : String → List Nat → K)
    (ivs : Nat → List Nat) (salt : List Nat) (p : String) (chunks : List (List Nat))
    (hsalt : salt.length = 16)
    (hiv : ∀ n, (ivs n).length = 12)
    (hround : ∀ iv m, A.dec (dk p salt) iv (A.enc (dk p salt) iv m) = some m)
    (hlen : ∀ iv m, (A.enc (dk p salt) iv m).length = m.length + 16) :
    decryptStream A dk p (encryptStream A dk ivs salt p chunks) = .ok chunks.flatten := by
  rw [encryptStream_eq, List.append_assoc, decryptStream_header A dk p salt _ hsalt,
    decLoop_encChunks A (dk p salt) ivs hiv hround hlen _ 0 []
      (emitted_chunks_size chunks.flatten),
    List.nil_append, emitted_chunks_flatten]

/-- Witness for C1 at a concrete cipher, password and plaintext. -/
theorem C1_cipher_roundtrip_witness :
    decryptStream myAEAD myDK "a" (encryptStream myAEAD myDK myIvs mySalt "a" [[1, 2, 3]]) =
      .ok [1, 2, 3] := by
  have h := C1_cipher_roundtrip myAEAD myDK myIvs mySalt "a" [[1, 2, 3]]
    rfl (fun _ => rfl) (fun iv m => myAEAD_round _ iv m) (fun iv m => myAEAD_enc_length _ iv m)
  simpa using h

/-- C3: decrypting a stream that was encrypted with password `p` using a
different password `w` fails with the single `"Incorrect Password"` error at
the verification chunk, before any plaintext byte is produced, and
the import pipeline surfaces the same error with no entry dispatched. -/
theorem C3_wrong_password {K : Type} (A : AEAD K) (dk : String → List Nat → K)
    (ivs : Nat → List Nat) (salt : List Nat) (p w : String) (chunks : List (List Nat))
    (gunzip : List Nat → List Nat)
    (hsalt : salt.length = 16)
    (hiv : ∀ n, (ivs n).length = 12)
    (hlen : ∀ iv m, (A.enc (dk p salt) iv m).length = m.length + 16)
    (hauth : ∀ iv m, A.dec (dk w salt) iv (A.enc (dk p salt) iv m) = none) :
    decryptStream A dk w (encryptStream A dk ivs salt p chunks) =
      .err [] "Incorrect Password" ∧
    importEntries A dk gunzip w (encryptStream A dk ivs salt p chunks) =
      .error "Incorrect Password" := by
  have hdec : decryptStream A dk w (encryptStream A dk ivs salt p chunks) =
      .err [] "Incorrect Password" := by
    rw [encryptStream_eq, List.append_assoc, decryptStream_header A dk w salt _ hsalt]
    simp only [encChunks, encChunkOut, List.append_assoc]
    rw [decLoop_cons A (dk w salt) (ivs 0) (A.enc (dk p salt) (ivs 0) []) _ [] (hiv 0)
      (by simp [hlen (ivs 0) []])]
    simp only [hauth (ivs 0) []]
  refine ⟨hdec, ?_⟩
  have hsniff : sniffFormat ((encryptStream A dk ivs salt p chunks).take 8) = .encrypted := by
    unfold sniffFormat
    rw [if_pos]
    rw [encryptStream_eq, List.append_assoc, List.take_take,
      show min 6 8 = 6 by omega]
    exact List.take_left' rfl
  unfold importEntries
  simp only [hsniff, hdec]

/-- Witness for C3 at a concrete cipher and concrete distinct passwords. -/
theorem C3_wrong_password_witness :
    decryptStream myAEAD myDK "b" (encryptStream myAEAD myDK myIvs mySalt "a" [[7]]) =
      .err [] "Incorrect Password" ∧
    importEntries myAEAD myDK id "b" (encryptStream myAEAD myDK myIvs mySalt "a" [[7]]) =
      .error "Incorrect Password" :=
  C3_wrong_password myAEAD myDK myIvs mySalt "a" "b" [[7]] id rfl (fun _ => rfl)
    (fun iv m => myAEAD_enc_length _ iv m) (fun iv m => myAEAD_auth iv m)

/-- C7 counterexample: for the empty plaintext — whose total length 0 is an
exact multiple of the 4 MiB chunk size — `flush` emits nothing: the stream
is 54 bytes (signature 6, salt 16, verification chunk 32) with no final
chunk, contradicting "finalization always emits one last chunk". -/
theorem C7_counterexample :
    encFlush myAEAD (myDK "a" mySalt) myIvs
        (runTransforms myAEAD (myDK "a" mySalt) myIvs ⟨[], 1⟩ []).1 = [] ∧
    (encryptStream myAEAD myDK myIvs mySalt "a" []).length = 54 :=
  ⟨rfl, rfl⟩

/-- C7 amended: on finalize the writer encrypts the residual buffer as one
final chunk exactly when the residual is non-empty — the emitted sequence is
the verification chunk, one chunk per full 4 MiB slice, and a final short
chunk precisely when the total plaintext length is not an exact multiple of
4 MiB (so no final chunk when it is, including the empty plaintext). -/
theorem C7_flush_final_chunk {K : Type} (A : AEAD K) (dk : String → List Nat → K)
    (ivs : Nat → List Nat) (salt : List Nat) (p : String) (chunks : List (List Nat)) :
    encryptStream A dk ivs salt p chunks =
      sigBytes ++ salt ++
        encChunks A (dk p salt) ivs 0
          ([] :: ((chopChunks chunks.flatten).1 ++
            (if (chopChunks chunks.flatten).2.isEmpty then []
             else [(chopChunks chunks.flatten).2]))) ∧
    ((chopChunks chunks.flatten).2.isEmpty ↔ chunks.flatten.length % CHUNK_SIZE = 0) := by
  refine ⟨encryptStream_eq A dk ivs salt p chunks, ?_⟩
  rw [List.isEmpty_iff, ← List.length_eq_zero, chopChunks_res_length]

/-- Truncating an encrypted stream: a cut before the 22-byte header fails
with `"File too small"`; any later cut yields a prefix of the plaintext,
either as a clean (possibly silently short) success or with the
`"Corrupt chunk"` error. -/
theorem truncatedCipher_cases {K : Type} (A : AEAD K) (dk : String → List Nat → K)
    (ivs : Nat → List Nat) (salt : List Nat) (p : String) (chunks : List (List Nat))
    (t : Nat)
    (hsalt : salt.length = 16)
    (hiv : ∀ n, (ivs n).length = 12)
    (hround : ∀ iv m, A.dec (dk p salt) iv (A.enc (dk p salt) iv m) = some m)
    (hlen : ∀ iv m, (A.enc (dk p salt) iv m).length = m.length + 16) :
    (t < 22 → decryptStream A dk p ((encryptStream A dk ivs salt p chunks).take t) =
      .err [] "File too small") ∧
    (22 ≤ t → ∃ out : List Nat, out <+: chunks.flatten ∧
      (decryptStream A dk p ((encryptStream A dk ivs salt p chunks).take t) = .ok out ∨
       decryptStream A dk p ((encryptStream A dk ivs salt p chunks).take t) =
         .err out "Corrupt chunk")) := by
  refine ⟨?_, ?_⟩
  · intro ht
    unfold decryptStream
    rw [if_pos (by simp only [List.length_take]; omega)]
  · intro ht
    rw [encryptStream_eq, List.append_assoc]
    have h1 : (sigBytes ++ (salt ++
        encChunks A (dk p salt) ivs 0
          ([] :: ((chopChunks chunks.flatten).1 ++
            (if (chopChunks chunks.flatten).2.isEmpty then []
             else [(chopChunks chunks.flatten).2]))))).take t =
        sigBytes ++ (salt ++
          (encChunks A (dk p salt) ivs 0
            ([] :: ((chopChunks chunks.flatten).1 ++
              (if (chopChunks chunks.flatten).2.isEmpty then []
               else [(chopChunks chunks.flatten).2])))).take (t - 22)) := by
      rw [List.take_append_eq_append_take,
        List.take_of_length_le (show (sigBytes : List Nat).length ≤ t by
          simp only [sigBytes]; simp; omega),
        List.take_append_eq_append_take,
        List.take_of_length_le (show salt.length ≤ t - (sigBytes : List Nat).length by
          simp [sigBytes, hsalt]; omega)]
      have : t - (sigBytes : List Nat).length - salt.length = t - 22 := by
        rw [show (sigBytes : List Nat).length = 6 from rfl, hsalt]
        omega
      rw [this]
    rw [h1, decryptStream_header A dk p salt _ hsalt]
    obtain ⟨ks, hks, hor⟩ :=
      decLoop_truncated A (dk p salt) ivs hiv hround hlen
        ([] :: ((chopChunks chunks.flatten).1 ++
          (if (chopChunks chunks.flatten).2.isEmpty then []
           else [(chopChunks chunks.flatten).2]))) 0 [] (t - 22)
        (emitted_chunks_size chunks.flatten)
    refine ⟨ks.flatten, ?_, ?_⟩
    · obtain ⟨r, hr⟩ := hks
      exact ⟨r.flatten, by rw [← List.flatten_append, hr, emitted_chunks_flatten]⟩
    · simpa using hor

/-! ## Lemmas: header field writes -/

theorem fieldZ_length (w : Nat) (bs : List Nat) : (fieldZ w bs).length = w := by
  simp only [fieldZ, List.length_append, List.length_take, List.length_replicate]
  omega

theorem fieldZ_of_length (w : Nat) {bs : List Nat} (h : bs.length = w) :
    fieldZ w bs = bs := by
  simp [fieldZ, h, List.take_of_length_le]

theorem octPad_length_ge (w n : Nat) : w ≤ (octPad w n).length := by
  simp only [octPad, List.length_append, List.length_replicate]
  omega

/-- A `writeStr` whose overwritten region is isolated as `mid`. -/
theorem writeStr_exact (pre mid post bs : List Nat) (off len : Nat)
    (hpre : pre.length = off) (hmid : mid.length = min len bs.length) :
    writeStr (pre ++ (mid ++ post)) bs off len = pre ++ (bs.take len ++ post) := by
  unfold writeStr
  subst hpre
  have htake : (pre ++ (mid ++ post)).take pre.length = pre := by
    rw [List.take_left]
  have hdrop : (pre ++ (mid ++ post)).drop (pre.length + min len bs.length) = post := by
    rw [← List.append_assoc]
    exact List.drop_left' (by simp [hmid])
  rw [htake, hdrop]
  have hbs : bs.take (min len bs.length) = bs.take len := by
    rw [List.take_eq_take]
    omega
  rw [hbs, List.append_assoc]

/-- A `writeStr` of width `len` into a zero region of exactly `len` bytes
produces the corresponding `fieldZ` field. -/
theorem writeStr_field (pre post bs : List Nat) (off w : Nat) (hpre : pre.length = off) :
    writeStr (pre ++ (List.replicate w 0 ++ post)) bs off w = pre ++ (fieldZ w bs ++ post) := by
  have hsplit : List.replicate w (0 : Nat) =
      List.replicate (min w bs.length) 0 ++ List.replicate (w - min w bs.length) 0 := by
    rw [← List.replicate_add]
    congr 1
    omega
  rw [hsplit, List.append_assoc,
    writeStr_exact pre (List.replicate (min w bs.length) 0)
      (List.replicate (w - min w bs.length) 0 ++ post) bs off w hpre (by simp)]
  have : w - min w bs.length = w - bs.length := by omega
  simp [fieldZ, this, List.append_assoc]

theorem headerLow_length (n : List Nat) (s t : Nat) : (headerLow n s t).length = 148 := by
  simp [headerLow, fieldZ_length]

/-- The 512-byte header in closed form: `headerLow`, then the 6 octal
checksum digits and two trailing spaces, then `headerHigh`; the checksum sum
is taken over `headerPre` (the same bytes with the blank checksum field). -/
theorem createTarHeader_eq (f : List Nat) (s : Nat) (d : Bool) (t : Nat) :
    createTarHeader f s d t =
      headerLow (splitPath f).1 s t ++
        ((octPad 6 (headerPre (splitPath f).1 (splitPath f).2 s t d).sum).take 6 ++
          (List.replicate 2 32 ++ headerHigh (splitPath f).2 d)) := by
  have h1 : writeStr (List.replicate 512 0) (splitPath f).1 0 100 =
      fieldZ 100 (splitPath f).1 ++ List.replicate 412 0 := by
    rw [show (List.replicate 512 (0 : Nat)) =
        [] ++ (List.replicate 100 0 ++ List.replicate 412 0) by
      simp only [List.nil_append, ← List.replicate_add]]
    rw [writeStr_field [] (List.replicate 412 0) (splitPath f).1 0 100 rfl]
    rw [List.nil_append]
  have h2 : writeStr (fieldZ 100 (splitPath f).1 ++ List.replicate 412 0)
        (octPad 7 436) 100 7 =
      fieldZ 100 (splitPath f).1 ++ (fieldZ 7 (octPad 7 436) ++ List.replicate 405 0) := by
    rw [show fieldZ 100 (splitPath f).1 ++ List.replicate 412 0 =
        fieldZ 100 (splitPath f).1 ++ (List.replicate 7 0 ++ List.replicate 405 0) by
      simp only [← List.replicate_add]]
    rw [writeStr_field _ _ _ 100 7 (fieldZ_length _ _)]
  have h3 : writeStr (fieldZ 100 (splitPath f).1 ++ (fieldZ 7 (octPad 7 436) ++
        List.replicate 405 0)) (octPad 7 0) 108 7 =
      fieldZ 100 (splitPath f).1 ++ (fieldZ 7 (octPad 7 436) ++ ([0] ++
        (fieldZ 7 (octPad 7 0) ++ List.replicate 397 0))) := by
    rw [show fieldZ 100 (splitPath f).1 ++ (fieldZ 7 (octPad 7 436) ++ List.replicate 405 0) =
        (fieldZ 100 (splitPath f).1 ++ (fieldZ 7 (octPad 7 436) ++ List.replicate 1 0)) ++
          (List.replicate 7 0 ++ List.replicate 397 0) by
      simp only [List.append_assoc, ← List.replicate_add]]
    rw [writeStr_field _ _ _ 108 7 (by simp only [List.length_append, List.length_replicate, List.length_cons, List.length_nil, fieldZ_length])]
    simp only [List.append_assoc, List.replicate_one]
  have h4 : writeStr (fieldZ 100 (splitPath f).1 ++ (fieldZ 7 (octPad 7 436) ++ ([0] ++
        (fieldZ 7 (octPad 7 0) ++ List.replicate 397 0)))) (octPad 7 0) 116 7 =
      fieldZ 100 (splitPath f).1 ++ (fieldZ 7 (octPad 7 436) ++ ([0] ++
        (fieldZ 7 (octPad 7 0) ++ ([0] ++ (fieldZ 7 (octPad 7 0) ++
          List.replicate 389 0))))) := by
    rw [show fieldZ 100 (splitPath f).1 ++ (fieldZ 7 (octPad 7 436) ++ ([0] ++
          (fieldZ 7 (octPad 7 0) ++ List.replicate 397 0))) =
        (fieldZ 100 (splitPath f).1 ++ (fieldZ 7 (octPad 7 436) ++ ([0] ++
          (fieldZ 7 (octPad 7 0) ++ List.replicate 1 0)))) ++
          (List.replicate 7 0 ++ List.replicate 389 0) by
      simp only [List.append_assoc, ← List.replicate_add]]
    rw [writeStr_field _ _ _ 116 7 (by simp only [List.length_append, List.length_replicate, List.length_cons, List.length_nil, fieldZ_length])]
    simp only [List.append_assoc, List.replicate_one]
  have h5 : writeStr (fieldZ 100 (splitPath f).1 ++ (fieldZ 7 (octPad 7 436) ++ ([0] ++
        (fieldZ 7 (octPad 7 0) ++ ([0] ++ (fieldZ 7 (octPad 7 0) ++
          List.replicate 389 0)))))) (octPad 11 s) 124 11 =
      fieldZ 100 (splitPath f).1 ++ (fieldZ 7 (octPad 7 436) ++ ([0] ++
        (fieldZ 7 (octPad 7 0) ++ ([0] ++ (fieldZ 7 (octPad 7 0) ++ ([0] ++
          (fieldZ 11 (octPad 11 s) ++ List.replicate 377 0))))))) := by
    rw [show fieldZ 100 (splitPath f).1 ++ (fieldZ 7 (octPad 7 436) ++ ([0] ++
          (fieldZ 7 (octPad 7 0) ++ ([0] ++ (fieldZ 7 (octPad 7 0) ++
            List.replicate 389 0))))) =
        (fieldZ 100 (splitPath f).1 ++ (fieldZ 7 (octPad 7 436) ++ ([0] ++
          (fieldZ 7 (octPad 7 0) ++ ([0] ++ (fieldZ 7 (octPad 7 0) ++
            List.replicate 1 0)))))) ++
          (List.replicate 11 0 ++ List.replicate 377 0) by
      simp only [List.append_assoc, ← List.replicate_add]]
    rw [writeStr_field _ _ _ 124 11 (by simp only [List.length_append, List.length_replicate, List.length_cons, List.length_nil, fieldZ_length])]
    simp only [List.append_assoc, List.replicate_one]
  have h6 : writeStr (fieldZ 100 (splitPath f).1 ++ (fieldZ 7 (octPad 7 436) ++ ([0] ++
        (fieldZ 7 (octPad 7 0) ++ ([0] ++ (fieldZ 7 (octPad 7 0) ++ ([0] ++
          (fieldZ 11 (octPad 11 s) ++ List.replicate 377 0)))))))) (octPad 11 t) 136 11 =
      fieldZ 100 (splitPath f).1 ++ (fieldZ 7 (octPad 7 436) ++ ([0] ++
        (fieldZ 7 (octPad 7 0) ++ ([0] ++ (fieldZ 7 (octPad 7 0) ++ ([0] ++
          (fieldZ 11 (octPad 11 s) ++ ([0] ++ (fieldZ 11 (octPad 11 t) ++
            List.replicate 365 0))))))))) := by
    rw [show fieldZ 100 (splitPath f).1 ++ (fieldZ 7 (octPad 7 436) ++ ([0] ++
          (fieldZ 7 (octPad 7 0) ++ ([0] ++ (fieldZ 7 (octPad 7 0) ++ ([0] ++
            (fieldZ 11 (octPad 11 s) ++ List.replicate 377 0))))))) =
        (fieldZ 100 (splitPath f).1 ++ (fieldZ 7 (octPad 7 436) ++ ([0] ++
          (fieldZ 7 (octPad 7 0) ++ ([0] ++ (fieldZ 7 (octPad 7 0) ++ ([0] ++
            (fieldZ 11 (octPad 11 s) ++ List.replicate 1 0)))))))) ++
          (List.replicate 11 0 ++ List.replicate 365 0) by
      simp only [List.append_assoc, ← List.replicate_add]]
    rw [writeStr_field _ _ _ 136 11 (by simp only [List.length_append, List.length_replicate, List.length_cons, List.length_nil, fieldZ_length])]
    simp only [List.append_assoc, List.replicate_one]
  have h7 : writeStr (fieldZ 100 (splitPath f).1 ++ (fieldZ 7 (octPad 7 436) ++ ([0] ++
        (fieldZ 7 (octPad 7 0) ++ ([0] ++ (fieldZ 7 (octPad 7 0) ++ ([0] ++
          (fieldZ 11 (octPad 11 s) ++ ([0] ++ (fieldZ 11 (octPad 11 t) ++
            List.replicate 365 0)))))))))) (List.replicate 8 32) 148 8 =
      headerLow (splitPath f).1 s t ++ (List.replicate 8 32 ++ List.replicate 356 0) := by
    rw [show fieldZ 100 (splitPath f).1 ++ (fieldZ 7 (octPad 7 436) ++ ([0] ++
          (fieldZ 7 (octPad 7 0) ++ ([0] ++ (fieldZ 7 (octPad 7 0) ++ ([0] ++
            (fieldZ 11 (octPad 11 s) ++ ([0] ++ (fieldZ 11 (octPad 11 t) ++
              List.replicate 365 0))))))))) =
        headerLow (splitPath f).1 s t ++ (List.replicate 8 0 ++ List.replicate 356 0) by
      simp only [headerLow, List.append_assoc, ← List.replicate_one, ← List.replicate_add]]
    rw [writeStr_field _ _ _ 148 8 (headerLow_length _ _ _)]
    rw [fieldZ_of_length 8 (by simp)]
  have h8 : writeStr (headerLow (splitPath f).1 s t ++ (List.replicate 8 32 ++
        List.replicate 356 0)) [if d then 53 else 48] 156 1 =
      headerLow (splitPath f).1 s t ++ (List.replicate 8 32 ++
        (fieldZ 1 [if d then 53 else 48] ++ List.replicate 355 0)) := by
    rw [show headerLow (splitPath f).1 s t ++ (List.replicate 8 32 ++ List.replicate 356 0) =
        (headerLow (splitPath f).1 s t ++ List.replicate 8 32) ++
          (List.replicate 1 0 ++ List.replicate 355 0) by
      simp only [List.append_assoc, ← List.replicate_add]]
    rw [writeStr_field _ _ _ 156 1 (by simp only [List.length_append, List.length_replicate, List.length_cons, List.length_nil, fieldZ_length, headerLow_length])]
    simp only [List.append_assoc, List.replicate_one]
  have h9 : writeStr (headerLow (splitPath f).1 s t ++ (List.replicate 8 32 ++
        (fieldZ 1 [if d then 53 else 48] ++ List.replicate 355 0)))
        [117, 115, 116, 97, 114] 257 6 =
      headerLow (splitPath f).1 s t ++ (List.replicate 8 32 ++
        (fieldZ 1 [if d then 53 else 48] ++ (List.replicate 100 0 ++
          (fieldZ 6 [117, 115, 116, 97, 114] ++ List.replicate 249 0)))) := by
    rw [show headerLow (splitPath f).1 s t ++ (List.replicate 8 32 ++
          (fieldZ 1 [if d then 53 else 48] ++ List.replicate 355 0)) =
        (headerLow (splitPath f).1 s t ++ (List.replicate 8 32 ++
          (fieldZ 1 [if d then 53 else 48] ++ List.replicate 100 0))) ++
          (List.replicate 6 0 ++ List.replicate 249 0) by
      simp only [List.append_assoc, ← List.replicate_add]]
    rw [writeStr_field _ _ _ 257 6 (by simp only [List.length_append, List.length_replicate, List.length_cons, List.length_nil, fieldZ_length, headerLow_length])]
    simp only [List.append_assoc, List.replicate_one]
  have h10 : writeStr (headerLow (splitPath f).1 s t ++ (List.replicate 8 32 ++
        (fieldZ 1 [if d then 53 else 48] ++ (List.replicate 100 0 ++
          (fieldZ 6 [117, 115, 116, 97, 114] ++ List.replicate 249 0)))))
        [48, 48] 263 2 =
      headerLow (splitPath f).1 s t ++ (List.replicate 8 32 ++
        (fieldZ 1 [if d then 53 else 48] ++ (List.replicate 100 0 ++
          (fieldZ 6 [117, 115, 116, 97, 114] ++ (fieldZ 2 [48, 48] ++
            List.replicate 247 0))))) := by
    rw [show headerLow (splitPath f).1 s t ++ (List.replicate 8 32 ++
          (fieldZ 1 [if d then 53 else 48] ++ (List.replicate 100 0 ++
            (fieldZ 6 [117, 115, 116, 97, 114] ++ List.replicate 249 0)))) =
        (headerLow (splitPath f).1 s t ++ (List.replicate 8 32 ++
          (fieldZ 1 [if d then 53 else 48] ++ (List.replicate 100 0 ++
            fieldZ 6 [117, 115, 116, 97, 114])))) ++
          (List.replicate 2 0 ++ List.replicate 247 0) by
      simp only [List.append_assoc, ← List.replicate_add]]
    rw [writeStr_field _ _ _ 263 2 (by simp only [List.length_append, List.length_replicate, List.length_cons, List.length_nil, fieldZ_length, headerLow_length])]
    simp only [List.append_assoc, List.replicate_one]
  have hsplit11 : headerLow (splitPath f).1 s t ++ (List.replicate 8 32 ++
        (fieldZ 1 [if d then 53 else 48] ++ (List.replicate 100 0 ++
          (fieldZ 6 [117, 115, 116, 97, 114] ++ (fieldZ 2 [48, 48] ++
            List.replicate 247 0))))) =
      (headerLow (splitPath f).1 s t ++ (List.replicate 8 32 ++
        (fieldZ 1 [if d then 53 else 48] ++ (List.replicate 100 0 ++
          (fieldZ 6 [117, 115, 116, 97, 114] ++ (fieldZ 2 [48, 48] ++
            List.replicate 80 0)))))) ++
        (List.replicate 155 0 ++ List.replicate 12 0) := by
    simp only [List.append_assoc, ← List.replicate_add]
  have h11 : writeStr (headerLow (splitPath f).1 s t ++ (List.replicate 8 32 ++
        (fieldZ 1 [if d then 53 else 48] ++ (List.replicate 100 0 ++
          (fieldZ 6 [117, 115, 116, 97, 114] ++ (fieldZ 2 [48, 48] ++
            List.replicate 247 0)))))) (splitPath f).2 345 155 =
      headerLow (splitPath f).1 s t ++ (List.replicate 8 32 ++
        headerHigh (splitPath f).2 d) := by
    rw [hsplit11]
    rw [writeStr_field _ _ _ 345 155 (by simp only [List.length_append, List.length_replicate, List.length_cons, List.length_nil, fieldZ_length, headerLow_length])]
    simp only [headerHigh, List.append_assoc]
  have h11e : (splitPath f).2.isEmpty = true →
      headerLow (splitPath f).1 s t ++ (List.replicate 8 32 ++
        (fieldZ 1 [if d then 53 else 48] ++ (List.replicate 100 0 ++
          (fieldZ 6 [117, 115, 116, 97, 114] ++ (fieldZ 2 [48, 48] ++
            List.replicate 247 0))))) =
      headerLow (splitPath f).1 s t ++ (List.replicate 8 32 ++
        headerHigh (splitPath f).2 d) := by
    intro hx
    rw [List.isEmpty_iff.mp hx]
    rw [hsplit11]
    simp only [headerHigh, fieldZ, List.take_nil, List.length_nil, Nat.sub_zero,
      List.nil_append, List.append_assoc]
  have hfinal : writeStr (headerLow (splitPath f).1 s t ++ (List.replicate 8 32 ++
        headerHigh (splitPath f).2 d))
        (octPad 6 ((headerLow (splitPath f).1 s t ++ (List.replicate 8 32 ++
          headerHigh (splitPath f).2 d)).sum)) 148 6 =
      headerLow (splitPath f).1 s t ++
        ((octPad 6 (headerPre (splitPath f).1 (splitPath f).2 s t d).sum).take 6 ++
          (List.replicate 2 32 ++ headerHigh (splitPath f).2 d)) := by
    rw [show headerLow (splitPath f).1 s t ++ (List.replicate 8 32 ++
          headerHigh (splitPath f).2 d) =
        headerLow (splitPath f).1 s t ++ (List.replicate 6 32 ++
          (List.replicate 2 32 ++ headerHigh (splitPath f).2 d)) by
      rw [show (8 : Nat) = 6 + 2 from rfl, List.replicate_add, List.append_assoc]]
    rw [writeStr_exact _ _ _ _ 148 6 (headerLow_length _ _ _)
      (by have := octPad_length_ge 6 ((headerLow (splitPath f).1 s t ++
            (List.replicate 6 32 ++ (List.replicate 2 32 ++
              headerHigh (splitPath f).2 d))).sum)
          simp only [List.length_replicate]
          omega)]
    have hpre : headerPre (splitPath f).1 (splitPath f).2 s t d =
        headerLow (splitPath f).1 s t ++ (List.replicate 6 32 ++
          (List.replicate 2 32 ++ headerHigh (splitPath f).2 d)) := by
      rw [headerPre, show (8 : Nat) = 6 + 2 from rfl, List.replicate_add, List.append_assoc]
    rw [← hpre]
  simp only [createTarHeader, writeOctal]
  rw [h1, h2, h3, h4, h5, h6, h7, h8, h9, h10]
  by_cases hx : (splitPath f).2.isEmpty
  · rw [if_pos hx, h11e hx]
    have hpre2 : headerPre (splitPath f).1 (splitPath f).2 s t d =
        headerLow (splitPath f).1 s t ++ (List.replicate 8 32 ++
          headerHigh (splitPath f).2 d) := rfl
    rw [show (6 : Nat) = 7 - 1 from rfl] at hfinal ⊢
    exact hfinal
  · rw [if_neg hx, h11]
    rw [show (6 : Nat) = 7 - 1 from rfl] at hfinal
    exact hfinal

/-! ## Lemmas: octal fields -/

theorem octDigitsGo_zero (fuel : Nat) : octDigitsGo fuel 0 = [] := by
  cases fuel <;> simp [octDigitsGo]

theorem octDigitsGo_val : ∀ (fuel n a : Nat), 0 < n → n ≤ fuel →
    (octDigitsGo fuel n).foldl (fun a b => a * 8 + (b - 48)) a =
      a * 8 ^ (octDigitsGo fuel n).length + n := by
  intro fuel
  induction fuel with
  | zero => intro n a hn hf; omega
  | succ fuel ih =>
    intro n a hn hf
    simp only [octDigitsGo, if_neg (by omega : ¬ n = 0)]
    rw [List.foldl_append]
    by_cases hd : n / 8 = 0
    · rw [hd, octDigitsGo_zero]
      simp only [List.foldl_nil, List.foldl_cons, List.length_append,
        List.length_nil, List.length_cons, List.foldl_nil]
      have h8 : 48 + n % 8 - 48 = n % 8 := by omega
      rw [h8]
      have : n % 8 = n := by omega
      simp [this]
    · rw [ih (n / 8) a (by omega) (by omega)]
      simp only [List.foldl_cons, List.foldl_nil, List.length_append, List.length_cons,
        List.length_nil]
      have h8 : 48 + n % 8 - 48 = n % 8 := by omega
      rw [h8, Nat.add_mul, Nat.pow_succ, ← Nat.mul_assoc]
      omega

theorem octVal_octDigits (n : Nat) :
    (octDigits n).foldl (fun a b => a * 8 + (b - 48)) 0 = n := by
  unfold octDigits
  by_cases h : n = 0
  · simp [h]
  · rw [if_neg h]
    have := octDigitsGo_val n n 0 (by omega) le_rfl
    simpa using this

theorem octVal_replicate48 (k : Nat) :
    (List.replicate k 48).foldl (fun a b => a * 8 + (b - 48)) 0 = 0 := by
  induction k with
  | zero => rfl
  | succ k ih => simpa [List.replicate_succ] using ih

theorem octVal_octPad (w n : Nat) :
    (octPad w n).foldl (fun a b => a * 8 + (b - 48)) 0 = n := by
  unfold octPad
  rw [List.foldl_append, octVal_replicate48, octVal_octDigits]

theorem octDigitsGo_mem : ∀ (fuel n b : Nat), b ∈ octDigitsGo fuel n → 48 ≤ b ∧ b ≤ 55 := by
  intro fuel
  induction fuel with
  | zero => intro n b hb; simp [octDigitsGo] at hb
  | succ fuel ih =>
    intro n b hb
    simp only [octDigitsGo] at hb
    by_cases h : n = 0
    · simp [h] at hb
    · rw [if_neg h] at hb
      rcases List.mem_append.mp hb with hb | hb
      · exact ih _ _ hb
      · simp at hb
        omega

theorem octPad_mem (w n b : Nat) (hb : b ∈ octPad w n) : 48 ≤ b ∧ b ≤ 55 := by
  unfold octPad at hb
  rcases List.mem_append.mp hb with hb | hb
  · have := List.eq_of_mem_replicate hb
    omega
  · unfold octDigits at hb
    by_cases h : n = 0
    · rw [if_pos h] at hb
      simp at hb
      omega
    · rw [if_neg h] at hb
      exact octDigitsGo_mem n n b hb

theorem octDigitsGo_length : ∀ (fuel n w : Nat), n ≤ fuel → n < 8 ^ w →
    (octDigitsGo fuel n).length ≤ w := by
  intro fuel
  induction fuel with
  | zero => intro n w _ _; simp [octDigitsGo]
  | succ fuel ih =>
    intro n w hf hw
    simp only [octDigitsGo]
    by_cases h : n = 0
    · simp [h]
    · rw [if_neg h]
      cases w with
      | zero => simp at hw; omega
      | succ w =>
        have hdiv : n / 8 < 8 ^ w := by
          rw [Nat.div_lt_iff_lt_mul (by norm_num)]
          calc n < 8 ^ (w + 1) := hw
          _ = 8 ^ w * 8 := by rw [Nat.pow_succ]
        have := ih (n / 8) w (by omega) hdiv
        simp only [List.length_append, List.length_cons, List.length_nil]
        omega

theorem octDigits_length (n w : Nat) (hw : 0 < w) (hn : n < 8 ^ w) :
    (octDigits n).length ≤ w := by
  unfold octDigits
  by_cases h : n = 0
  · simp [h]
    omega
  · rw [if_neg h]
    exact octDigitsGo_length n n w le_rfl hn

theorem octPad_length (w n : Nat) (hw : 0 < w) (hn : n < 8 ^ w) :
    (octPad w n).length = w := by
  have := octDigits_length n w hw hn
  simp only [octPad, List.length_append, List.length_replicate]
  omega

theorem takeWhile_append_of_all {p : Nat → Bool} {xs ys : List Nat}
    (h : ∀ x ∈ xs, p x = true) :
    (xs ++ ys).takeWhile p = xs ++ ys.takeWhile p := by
  induction xs with
  | nil => simp
  | cons a t ih => simp_all [List.takeWhile_cons]

theorem takeWhile_ne_replicate_zero (k : Nat) :
    (List.replicate k (0 : Nat)).takeWhile (· ≠ 0) = [] := by
  cases k with
  | zero => rfl
  | succ k => simp [List.replicate_succ, List.takeWhile_cons]

/-- Decoding a zero-padded field cut at the first NUL recovers the written
bytes when they are NUL-free and fit the field. -/
theorem takeWhile_field {w : Nat} {bs : List Nat} (hb : ∀ b ∈ bs, b ≠ 0)
    (hlt : bs.length ≤ w) :
    (fieldZ w bs).takeWhile (· ≠ 0) = bs := by
  unfold fieldZ
  rw [List.take_of_length_le hlt]
  rw [takeWhile_append_of_all (by intro x hx; simpa using hb x hx)]
  rw [takeWhile_ne_replicate_zero, List.append_nil]

/-- Inside a regex match, a run of zeros is deleted entirely (no line
terminator among them). -/
theorem stripNulGo_true_zeros (k : Nat) :
    stripNulGo true (List.replicate k 0) = [] := by
  induction k with
  | zero => rfl
  | succ k ih => simpa [List.replicate_succ, stripNulGo] using ih

theorem stripNulGo_false_zeros (k : Nat) :
    stripNulGo false (List.replicate k 0) = [] := by
  cases k with
  | zero => rfl
  | succ k => simpa [List.replicate_succ, stripNulGo] using stripNulGo_true_zeros k

theorem stripNulGo_false_append {bs : List Nat} (hb : ∀ b ∈ bs, b ≠ 0) (k : Nat) :
    stripNulGo false (bs ++ List.replicate k 0) = bs := by
  induction bs with
  | nil => simpa using stripNulGo_false_zeros k
  | cons a t ih =>
    have ha : a ≠ 0 := hb a (List.mem_cons_self a t)
    simp only [List.cons_append, stripNulGo, if_neg ha]
    exact congrArg (a :: ·) (ih (fun b hbm => hb b (List.mem_cons_of_mem a hbm)))

/-- `replace(/\0.*/g, "")` on an all-zero field gives the empty string. -/
theorem stripFromNul_replicate_zero (k : Nat) :
    stripFromNul (List.replicate k 0) = [] :=
  stripNulGo_false_zeros k

/-- Decoding a zero-padded field with the NUL-stripping regex recovers the
written bytes when they are NUL-free and fit the field. -/
theorem stripFromNul_field {w : Nat} {bs : List Nat} (hb : ∀ b ∈ bs, b ≠ 0)
    (hlt : bs.length ≤ w) :
    stripFromNul (fieldZ w bs) = bs := by
  unfold fieldZ stripFromNul
  rw [List.take_of_length_le hlt]
  exact stripNulGo_false_append hb (w - bs.length)

/-- Parsing an octal field produced by `writeOctal`: the padded digits
followed by any non-digit trailer decode back to the value. -/
theorem parseOctalField_padded (w n : Nat) (t : List Nat) (hw : 0 < w) (hn : n < 8 ^ w)
    (ht : t.takeWhile isOctDigit = []) :
    parseOctalField (octPad w n ++ t) = some n := by
  unfold parseOctalField
  have hall : ∀ b ∈ octPad w n, isOctDigit b = true := by
    intro b hb
    have := octPad_mem w n b hb
    simp [isOctDigit]
    omega
  have hlen : (octPad w n).length = w := octPad_length w n hw hn
  have hdropW : (octPad w n ++ t).dropWhile isJsSpace = octPad w n ++ t := by
    cases hcons : octPad w n with
    | nil => rw [hcons] at hlen; simp at hlen; omega
    | cons hd tl =>
      have hhd : 48 ≤ hd ∧ hd ≤ 55 :=
        octPad_mem w n hd (by rw [hcons]; exact List.mem_cons_self hd tl)
      rw [List.cons_append, List.dropWhile_cons, if_neg (by simp [isJsSpace]; omega)]
  rw [hdropW, takeWhile_append_of_all hall, ht, List.append_nil]
  rw [if_neg (by simp [List.isEmpty_iff]; intro hc; rw [hc] at hlen; simp at hlen; omega)]
  rw [octVal_octPad]

/-- `parseInt` on a field produced by `writeOctal`: the padded digits start
with a digit (no sign, no space), so the signed parse returns the value. -/
theorem parseSizeField_padded (w n : Nat) (t : List Nat) (hw : 0 < w) (hn : n < 8 ^ w)
    (ht : t.takeWhile isOctDigit = []) :
    parseSizeField (octPad w n ++ t) = some ((n : Nat) : Int) := by
  have hlen : (octPad w n).length = w := octPad_length w n hw hn
  have hall : ∀ b ∈ octPad w n, isOctDigit b = true := by
    intro b hb
    have := octPad_mem w n b hb
    simp [isOctDigit]
    omega
  obtain ⟨hd, tl, hcons⟩ : ∃ hd tl, octPad w n = hd :: tl := by
    cases hc : octPad w n with
    | nil => rw [hc] at hlen; simp at hlen; omega
    | cons a b => exact ⟨a, b, rfl⟩
  have hhd : 48 ≤ hd ∧ hd ≤ 55 :=
    octPad_mem w n hd (by rw [hcons]; exact List.mem_cons_self hd tl)
  have hdropW : (octPad w n ++ t).dropWhile isJsSpace = octPad w n ++ t := by
    rw [hcons, List.cons_append, List.dropWhile_cons,
      if_neg (by simp [isJsSpace]; omega)]
  have hhead : (octPad w n ++ t).head? = some hd := by
    rw [hcons, List.cons_append, List.head?_cons]
  simp only [parseSizeField, hdropW, hhead]
  have hsign : ¬ ((some hd : Option Nat) = some 43 ∨ (some hd : Option Nat) = some 45) := by
    rintro (h | h) <;> (simp only [Option.some.injEq] at h; omega)
  rw [if_neg hsign]
  rw [takeWhile_append_of_all hall, ht, List.append_nil]
  have hne : ¬ ((octPad w n).isEmpty = true) := by
    simp [List.isEmpty_iff]
    intro hc
    rw [hc] at hlen
    simp at hlen
    omega
  rw [if_neg hne]
  have hneg45 : ¬ ((some hd : Option Nat) = some 45) := by
    simp only [Option.some.injEq]
    omega
  rw [if_neg hneg45]
  rw [octVal_octPad]

/-- For a non-negative (`Nat`-cast) size, the JavaScript padding formula is
the plain `Nat` one. -/
theorem jsPadding_natCast (n : Nat) :
    jsPadding ((n : Nat) : Int) = (512 - n % 512) % 512 := by
  unfold jsPadding
  have h1 : Int.tmod ((n : Nat) : Int) 512 = (((n % 512 : Nat)) : Int) := rfl
  have h2 : (512 : Int) - (((n % 512 : Nat)) : Int) = (((512 - n % 512 : Nat)) : Int) := by
    have : n % 512 ≤ 512 := le_of_lt (Nat.mod_lt n (by norm_num))
    omega
  rw [h1, h2,
    show Int.tmod ((((512 - n % 512 : Nat)) : Int)) 512 =
      ((((512 - n % 512) % 512 : Nat)) : Int) from rfl]
  exact Int.toNat_natCast _

/-- For a non-negative (`Nat`-cast) size, the consume split point is the
size itself. -/
theorem consumeCount_natCast (r n : Nat) :
    consumeCount r ((n : Nat) : Int) = n := by
  unfold consumeCount
  rw [if_pos (Int.natCast_nonneg n)]
  exact Int.toNat_natCast n

/-! ## Lemmas: the long-name split -/

theorem lastIndexOfLe_spec {l : List Nat} {b pos i : Nat}
    (h : lastIndexOfLe l b pos = some i) :
    i < l.length ∧ i ≤ pos ∧ l.getD i 0 = b := by
  unfold lastIndexOfLe at h
  have hmem : i ∈ (List.range (min (pos + 1) l.length)).filter
      (fun j => l.getD j 0 == b) := by
    have h' : i ∈ ((List.range (min (pos + 1) l.length)).filter
        (fun j => l.getD j 0 == b)).getLast? := by
      rw [h]
      rfl
    obtain ⟨hne, heq⟩ := List.mem_getLast?_eq_getLast h'
    rw [heq]
    exact List.getLast_mem hne
  rw [List.mem_filter] at hmem
  obtain ⟨hrange, hbeq⟩ := hmem
  rw [List.mem_range] at hrange
  refine ⟨by omega, by omega, by simpa using hbeq⟩

theorem reconstruct_at {l : List Nat} {i : Nat} (h : i < l.length) :
    l.take i ++ l.getD i 0 :: l.drop (i + 1) = l := by
  conv_rhs => rw [← List.take_append_drop i l]
  congr 1
  rw [List.drop_eq_getElem_cons h]
  congr 1
  exact List.getD_eq_getElem l 0 h

theorem splitPath_short {f : List Nat} (h : f.length ≤ 100) : splitPath f = (f, []) := by
  unfold splitPath
  rw [if_neg (by omega)]

theorem splitPath_long {f : List Nat} {i : Nat} (hlen : 100 < f.length)
    (hfind : lastIndexOfLe f 47 154 = some i) (hge : f.length - 100 ≤ i) :
    splitPath f = (f.drop (i + 1), f.take i) := by
  unfold splitPath
  rw [if_pos hlen, hfind]
  have hne : (f.take i).isEmpty = false := by
    rw [List.isEmpty_eq_false_iff_exists_mem]
    have h1 : 0 < i := by omega
    have h2 : 0 < f.length := by omega
    obtain ⟨a, ha⟩ := List.exists_mem_of_length_pos (l := f.take i)
      (by simp only [List.length_take]; omega)
    exact ⟨a, ha⟩
  simp only [if_neg (show ¬ i < f.length - 100 by omega), hne]
  simp

theorem splitPath_mem_name {f : List Nat} : ∀ b ∈ (splitPath f).1, b ∈ f := by
  intro b hb
  unfold splitPath at hb
  by_cases h : 100 < f.length
  · rw [if_pos h] at hb
    exact List.mem_of_mem_drop hb
  · rw [if_neg h] at hb
    exact hb

theorem splitPath_mem_pfx {f : List Nat} : ∀ b ∈ (splitPath f).2, b ∈ f := by
  intro b hb
  unfold splitPath at hb
  by_cases h : 100 < f.length
  · rw [if_pos h] at hb
    exact List.mem_of_mem_take hb
  · rw [if_neg h] at hb
    simp at hb

/-! ## Lemmas: header field projections -/

theorem drop_seg (X Y : List Nat) (a k : Nat) (hx : X.length = a) :
    (X ++ Y).drop (a + k) = Y.drop k := by
  rw [List.drop_append_eq_append_drop]
  rw [List.drop_eq_nil_iff.mpr (by omega), List.nil_append, hx]
  congr 1
  omega

theorem headerHigh_length (x : List Nat) (d : Bool) : (headerHigh x d).length = 356 := by
  simp only [headerHigh, List.length_append, List.length_replicate, fieldZ_length]

theorem cksumTake_length (v : Nat) : ((octPad 6 v).take 6).length = 6 := by
  have := octPad_length_ge 6 v
  simp only [List.length_take]
  omega

theorem createTarHeader_length (f : List Nat) (s : Nat) (d : Bool) (t : Nat) :
    (createTarHeader f s d t).length = 512 := by
  rw [createTarHeader_eq]
  simp only [List.length_append, headerLow_length, headerHigh_length, cksumTake_length,
    List.length_replicate]

theorem header_nameField (f : List Nat) (s : Nat) (d : Bool) (t : Nat) :
    decodeNameField (createTarHeader f s d t) =
      stripFromNul (fieldZ 100 (splitPath f).1) := by
  unfold decodeNameField
  rw [createTarHeader_eq]
  simp only [headerLow, List.append_assoc]
  rw [List.take_left' (fieldZ_length 100 (splitPath f).1)]

theorem header_prefixField (f : List Nat) (s : Nat) (d : Bool) (t : Nat) :
    decodePrefixField (createTarHeader f s d t) =
      stripFromNul (fieldZ 155 (splitPath f).2) := by
  unfold decodePrefixField
  rw [createTarHeader_eq]
  rw [show (345 : Nat) = 148 + 197 from rfl,
    drop_seg _ _ 148 197 (headerLow_length (splitPath f).1 s t)]
  rw [show (197 : Nat) = 6 + 191 from rfl,
    drop_seg _ _ 6 191 (cksumTake_length _)]
  rw [show (191 : Nat) = 2 + 189 from rfl,
    drop_seg _ _ 2 189 (List.length_replicate 2 32)]
  simp only [headerHigh, List.append_assoc]
  rw [show (189 : Nat) = 1 + 188 from rfl,
    drop_seg _ _ 1 188 (fieldZ_length 1 _)]
  rw [show (188 : Nat) = 100 + 88 from rfl,
    drop_seg _ _ 100 88 (List.length_replicate 100 0)]
  rw [show (88 : Nat) = 6 + 82 from rfl,
    drop_seg _ _ 6 82 (fieldZ_length 6 _)]
  rw [show (82 : Nat) = 2 + 80 from rfl,
    drop_seg _ _ 2 80 (fieldZ_length 2 _)]
  rw [show (80 : Nat) = 80 + 0 from rfl,
    drop_seg _ _ 80 0 (List.length_replicate 80 0), List.drop_zero]
  rw [List.take_left' (fieldZ_length 155 (splitPath f).2)]

theorem header_sizeField (f : List Nat) (s : Nat) (d : Bool) (t : Nat) :
    decodeSizeField (createTarHeader f s d t) =
      parseSizeField (fieldZ 11 (octPad 11 s) ++ [0]) := by
  unfold decodeSizeField
  rw [createTarHeader_eq]
  simp only [headerLow, List.append_assoc]
  rw [show (124 : Nat) = 100 + 24 from rfl,
    drop_seg _ _ 100 24 (fieldZ_length 100 _)]
  rw [show (24 : Nat) = 7 + 17 from rfl,
    drop_seg _ _ 7 17 (fieldZ_length 7 _)]
  rw [show (17 : Nat) = 1 + 16 from rfl,
    drop_seg _ _ 1 16 (by rfl : ([0] : List Nat).length = 1)]
  rw [show (16 : Nat) = 7 + 9 from rfl,
    drop_seg _ _ 7 9 (fieldZ_length 7 _)]
  rw [show (9 : Nat) = 1 + 8 from rfl,
    drop_seg _ _ 1 8 (by rfl : ([0] : List Nat).length = 1)]
  rw [show (8 : Nat) = 7 + 1 from rfl,
    drop_seg _ _ 7 1 (fieldZ_length 7 _)]
  rw [show (1 : Nat) = 1 + 0 from rfl,
    drop_seg _ _ 1 0 (by rfl : ([0] : List Nat).length = 1), List.drop_zero]
  rw [List.take_append_eq_append_take,
    List.take_of_length_le (by rw [fieldZ_length]; omega :
      (fieldZ 11 (octPad 11 s)).length ≤ 12)]
  rw [show (12 : Nat) - (fieldZ 11 (octPad 11 s)).length = 1 by rw [fieldZ_length]]
  rw [List.take_left' (by rfl : ([0] : List Nat).length = 1)]

theorem header_cksumField (f : List Nat) (s : Nat) (d : Bool) (t : Nat) :
    decodeChecksumField (createTarHeader f s d t) =
      parseOctalField
        ((octPad 6 (headerPre (splitPath f).1 (splitPath f).2 s t d).sum).take 6 ++
          List.replicate 2 32) := by
  unfold decodeChecksumField
  rw [createTarHeader_eq]
  rw [show (148 : Nat) = 148 + 0 from rfl,
    drop_seg _ _ 148 0 (headerLow_length (splitPath f).1 s t), List.drop_zero]
  rw [List.take_append_eq_append_take,
    List.take_of_length_le (by rw [cksumTake_length]; omega :
      ((octPad 6 (headerPre (splitPath f).1 (splitPath f).2 s t d).sum).take 6).length ≤ 8)]
  rw [show (8 : Nat) -
      ((octPad 6 (headerPre (splitPath f).1 (splitPath f).2 s t d).sum).take 6).length = 2
    by rw [cksumTake_length]]
  rw [List.take_left' (List.length_replicate 2 32)]

theorem blankChecksum_header (f : List Nat) (s : Nat) (d : Bool) (t : Nat) :
    blankChecksum (createTarHeader f s d t) =
      headerPre (splitPath f).1 (splitPath f).2 s t d := by
  unfold blankChecksum
  rw [createTarHeader_eq]
  rw [List.take_left' (headerLow_length (splitPath f).1 s t)]
  rw [show (156 : Nat) = 148 + 8 from rfl,
    drop_seg _ _ 148 8 (headerLow_length (splitPath f).1 s t)]
  rw [show (8 : Nat) = 6 + 2 from rfl,
    drop_seg _ _ 6 2 (cksumTake_length _)]
  rw [show (2 : Nat) = 2 + 0 from rfl,
    drop_seg _ _ 2 0 (List.length_replicate 2 32), List.drop_zero]
  rw [headerPre]
  simp only [List.append_assoc]

/-! ## Lemmas: checksum sum bound and path round-trip -/

theorem headerPre_length (n x : List Nat) (s t : Nat) (d : Bool) :
    (headerPre n x s t d).length = 512 := by
  simp only [headerPre, List.length_append, headerLow_length, headerHigh_length,
    List.length_replicate]

theorem fieldZ_mem {w : Nat} {bs : List Nat} {b : Nat} (hb : b ∈ fieldZ w bs) :
    b ∈ bs ∨ b = 0 := by
  unfold fieldZ at hb
  rcases List.mem_append.mp hb with h | h
  · exact Or.inl (List.mem_of_mem_take h)
  · exact Or.inr (List.eq_of_mem_replicate h)

theorem headerPre_bytes {n x : List Nat} {s t : Nat} {d : Bool}
    (hn : ∀ b ∈ n, b < 256) (hx : ∀ b ∈ x, b < 256) :
    ∀ b ∈ headerPre n x s t d, b < 256 := by
  intro b hb
  simp only [headerPre, headerLow, headerHigh, List.append_assoc, List.mem_append] at hb
  rcases hb with hb | hb | hb | hb | hb | hb | hb | hb | hb | hb | hb | hb | hb | hb |
    hb | hb | hb | hb | hb
  · rcases fieldZ_mem hb with h | h
    · exact hn b h
    · omega
  · rcases fieldZ_mem hb with h | h
    · have := octPad_mem _ _ _ h
      omega
    · omega
  · simp at hb; omega
  · rcases fieldZ_mem hb with h | h
    · have := octPad_mem _ _ _ h
      omega
    · omega
  · simp at hb; omega
  · rcases fieldZ_mem hb with h | h
    · have := octPad_mem _ _ _ h
      omega
    · omega
  · simp at hb; omega
  · rcases fieldZ_mem hb with h | h
    · have := octPad_mem _ _ _ h
      omega
    · omega
  · simp at hb; omega
  · rcases fieldZ_mem hb with h | h
    · have := octPad_mem _ _ _ h
      omega
    · omega
  · simp at hb; omega
  · have := List.eq_of_mem_replicate hb
    omega
  · rcases fieldZ_mem hb with h | h
    · have hb2 : b = if d then 53 else 48 := by simpa using h
      rw [hb2]
      split <;> omega
    · omega
  · have := List.eq_of_mem_replicate hb
    omega
  · rcases fieldZ_mem hb with h | h
    · simp at h
      omega
    · omega
  · rcases fieldZ_mem hb with h | h
    · simp at h
      omega
    · omega
  · have := List.eq_of_mem_replicate hb
    omega
  · rcases fieldZ_mem hb with h | h
    · exact hx b h
    · omega
  · have := List.eq_of_mem_replicate hb
    omega

theorem headerPre_sum_lt {n x : List Nat} {s t : Nat} {d : Bool}
    (hn : ∀ b ∈ n, b < 256) (hx : ∀ b ∈ x, b < 256) :
    (headerPre n x s t d).sum < 262144 := by
  have hb : ∀ b ∈ headerPre n x s t d, b ≤ 255 := by
    intro b hbm
    have := headerPre_bytes hn hx b hbm
    omega
  have hs := List.sum_le_card_nsmul (headerPre n x s t d) 255 hb
  rw [headerPre_length, smul_eq_mul] at hs
  omega

/-- Decoding the name and prefix fields of a written header and rejoining
them reproduces the original path, for any path satisfying `goodPath`. -/
theorem decodedPath_header {p : List Nat} (s : Nat) (d : Bool) (t : Nat)
    (hgood : goodPath p) :
    decodedPath (createTarHeader p s d t) = p := by
  obtain ⟨hb, hcase⟩ := hgood
  have hnz : ∀ b ∈ p, b ≠ 0 := fun b hbm => (hb b hbm).1
  unfold decodedPath
  rw [header_nameField, header_prefixField]
  by_cases hlen : p.length ≤ 100
  · rw [splitPath_short hlen]
    dsimp only
    rw [show fieldZ 155 ([] : List Nat) = List.replicate 155 0 by simp [fieldZ]]
    rw [stripFromNul_replicate_zero]
    simp only [List.isEmpty_nil, if_pos]
    exact stripFromNul_field hnz hlen
  · obtain ⟨i, hfind, hge⟩ : ∃ i, lastIndexOfLe p 47 154 = some i ∧ p.length - 100 ≤ i := by
      rcases hcase with h | h
      · omega
      · exact h
    obtain ⟨hi_lt, hi_pos, hi_eq⟩ := lastIndexOfLe_spec hfind
    rw [splitPath_long (by omega) hfind hge]
    dsimp only
    rw [stripFromNul_field (fun b hbm => hnz b (List.mem_of_mem_take hbm))
      (by simp only [List.length_take]; omega)]
    rw [stripFromNul_field (fun b hbm => hnz b (List.mem_of_mem_drop hbm))
      (by simp only [List.length_drop]; omega)]
    rw [show (p.take i).isEmpty = false by
      rw [List.isEmpty_eq_false_iff_exists_mem]
      exact List.exists_mem_of_length_pos (by simp only [List.length_take]; omega)]
    simp only [Bool.false_eq_true, if_neg]
    rw [← hi_eq]
    exact reconstruct_at hi_lt

/-! ## Lemmas: the tar writer -/

theorem createTarHeader_has_space (f : List Nat) (s : Nat) (d : Bool) (t : Nat) :
    (32 : Nat) ∈ createTarHeader f s d t := by
  rw [createTarHeader_eq]
  refine List.mem_append.mpr (Or.inr ?_)
  refine List.mem_append.mpr (Or.inr ?_)
  refine List.mem_append.mpr (Or.inl ?_)
  simp [List.mem_replicate]

theorem createTarHeader_not_all_zero (f : List Nat) (s : Nat) (d : Bool) (t : Nat) :
    ¬ ((createTarHeader f s d t).all (· = 0) = true) := by
  intro hall
  rw [List.all_eq_true] at hall
  have := hall 32 (createTarHeader_has_space f s d t)
  simp at this

theorem twWriteEntry_spec (w : TarW) (path data : List Nat) (mtime : Nat)
    (hpos : w.pos % 512 = 0) :
    (twWriteEntry w path data mtime).out = w.out ++ entryBlock path data mtime ∧
    (twWriteEntry w path data mtime).pos % 512 = 0 := by
  unfold twWriteEntry twPad twWrite
  simp only
  have hpad : (512 - (w.pos + (createTarHeader path data.length false mtime).length +
      data.length) % 512) % 512 = (512 - data.length % 512) % 512 := by
    rw [createTarHeader_length]
    omega
  rw [hpad]
  by_cases h : 0 < (512 - data.length % 512) % 512
  · rw [if_pos h]
    simp only [entryBlock, List.append_assoc, List.length_replicate]
    refine ⟨by trivial, ?_⟩
    rw [createTarHeader_length]
    omega
  · rw [if_neg h]
    have hz : (512 - data.length % 512) % 512 = 0 := by omega
    simp only [entryBlock, hz, List.replicate_zero, List.append_nil, List.append_assoc]
    refine ⟨by trivial, ?_⟩
    rw [createTarHeader_length]
    omega

theorem tarEncode_aux (mtime : Nat) (entries : List (List Nat × List Nat)) :
    ∀ w : TarW, w.pos % 512 = 0 →
      (entries.foldl (fun w e => twWriteEntry w e.1 e.2 mtime) w).out =
        w.out ++ (entries.map (fun e => entryBlock e.1 e.2 mtime)).flatten ∧
      (entries.foldl (fun w e => twWriteEntry w e.1 e.2 mtime) w).pos % 512 = 0 := by
  induction entries with
  | nil =>
    intro w hw
    simpa using hw
  | cons e es ih =>
    intro w hw
    simp only [List.foldl_cons, List.map_cons, List.flatten_cons]
    obtain ⟨ho, hp⟩ := twWriteEntry_spec w e.1 e.2 mtime hw
    obtain ⟨iho, ihp⟩ := ih _ hp
    refine ⟨?_, ihp⟩
    rw [iho, ho, List.append_assoc]

theorem tarEncode_eq (entries : List (List Nat × List Nat)) (mtime : Nat) :
    tarEncode entries mtime =
      (entries.map (fun e => entryBlock e.1 e.2 mtime)).flatten ++
        List.replicate 1024 0 := by
  unfold tarEncode twClose twWrite
  obtain ⟨ho, _⟩ := tarEncode_aux mtime entries ⟨[], 0⟩ (by simp)
  simp only [ho, List.nil_append]

/-! ## Lemmas: the tar parsing loop -/

theorem parseTarGo_congr : ∀ (f g : Nat) (input : List Nat),
    input.length < f → input.length < g → parseTarGo f input = parseTarGo g input := by
  intro f
  induction f with
  | zero => intro g input hf _; omega
  | succ f ih =>
    intro g input hf hg
    cases g with
    | zero => omega
    | succ g =>
      simp only [parseTarGo]
      by_cases h512 : input.length < 512
      · simp [h512]
      · rw [if_neg h512, if_neg h512]
        by_cases hz : (input.take 512).all (· = 0)
        · rw [if_pos hz, if_pos hz]
        · rw [if_neg hz, if_neg hz]
          cases hsz : decodeSizeField (input.take 512) with
          | none => simp only [hsz]
          | some size =>
            simp only [hsz]
            by_cases h0 : size = 0
            · rw [if_pos h0, if_pos h0,
                ih g ((input.drop 512).drop (jsPadding size))
                  (by simp only [List.length_drop]; omega)
                  (by simp only [List.length_drop]; omega)]
            · rw [if_neg h0, if_neg h0]
              by_cases hdp : dataPrefixBytes.isPrefixOf (decodedPath (input.take 512))
              · rw [if_pos hdp, if_pos hdp]
                by_cases heof : ((input.drop 512).length : Int) < size
                · rw [if_pos heof, if_pos heof]
                · rw [if_neg heof, if_neg heof,
                    ih g (((input.drop 512).drop
                        (consumeCount (input.drop 512).length size)).drop (jsPadding size))
                      (by simp only [List.length_drop]; omega)
                      (by simp only [List.length_drop]; omega)]
              · rw [if_neg hdp, if_neg hdp,
                  ih g (((input.drop 512).drop
                      (consumeCount (input.drop 512).length size)).drop (jsPadding size))
                    (by simp only [List.length_drop]; omega)
                    (by simp only [List.length_drop]; omega)]

/-- The natural recurrence of the import tar loop. -/
theorem parseTarLoop_eq (input : List Nat) :
    parseTarLoop input =
      if input.length < 512 then .ok []
      else if (input.take 512).all (· = 0) then .ok []
      else
        match decodeSizeField (input.take 512) with
        | none => .ok []
        | some size =>
          if size = 0 then
            match parseTarLoop ((input.drop 512).drop (jsPadding size)) with
            | .ok es => .ok ((decodedPath (input.take 512), size, []) :: es)
            | .error e => .error e
          else if dataPrefixBytes.isPrefixOf (decodedPath (input.take 512)) then
            if ((input.drop 512).length : Int) < size then
              .error "Unexpected EOF in system file"
            else
              match parseTarLoop (((input.drop 512).drop
                  (consumeCount (input.drop 512).length size)).drop (jsPadding size)) with
              | .ok es =>
                .ok ((decodedPath (input.take 512), size,
                  (input.drop 512).take (consumeCount (input.drop 512).length size)) :: es)
              | .error e => .error e
          else
            match parseTarLoop (((input.drop 512).drop
                (consumeCount (input.drop 512).length size)).drop (jsPadding size)) with
            | .ok es =>
              .ok ((decodedPath (input.take 512), size,
                (input.drop 512).take (consumeCount (input.drop 512).length size)) :: es)
            | .error e => .error e := by
  unfold parseTarLoop
  conv_lhs => simp only [parseTarGo]
  by_cases h512 : input.length < 512
  · rw [if_pos h512, if_pos h512]
  · rw [if_neg h512, if_neg h512]
    by_cases hz : (input.take 512).all (· = 0)
    · rw [if_pos hz, if_pos hz]
    · rw [if_neg hz, if_neg hz]
      cases hsz : decodeSizeField (input.take 512) with
      | none => simp only [hsz]
      | some size =>
        simp only [hsz]
        by_cases h0 : size = 0
        · rw [if_pos h0, if_pos h0,
            parseTarGo_congr input.length _ ((input.drop 512).drop (jsPadding size))
              (by simp only [List.length_drop]; omega) (Nat.lt_succ_self _)]
        · rw [if_neg h0, if_neg h0]
          by_cases hdp : dataPrefixBytes.isPrefixOf (decodedPath (input.take 512))
          · rw [if_pos hdp, if_pos hdp]
            by_cases heof : ((input.drop 512).length : Int) < size
            · rw [if_pos heof, if_pos heof]
            · rw [if_neg heof, if_neg heof,
                parseTarGo_congr input.length _
                  (((input.drop 512).drop
                    (consumeCount (input.drop 512).length size)).drop (jsPadding size))
                  (by simp only [List.length_drop]; omega) (Nat.lt_succ_self _)]
          · rw [if_neg hdp, if_neg hdp,
              parseTarGo_congr input.length _
                (((input.drop 512).drop
                  (consumeCount (input.drop 512).length size)).drop (jsPadding size))
                (by simp only [List.length_drop]; omega) (Nat.lt_succ_self _)]

/-- Decoding a writer-produced size field. -/
theorem header_size_roundtrip (p d : List Nat) (mtime : Nat) (hsz : d.length < 8 ^ 11) :
    decodeSizeField (createTarHeader p d.length false mtime) =
      some ((d.length : Nat) : Int) := by
  rw [header_sizeField, fieldZ_of_length 11 (octPad_length 11 d.length (by norm_num) hsz)]
  exact parseSizeField_padded 11 d.length [0] (by norm_num) hsz (by decide)

/-- Round trip of the container codec relative to any clean trailer `Z`
(the 1024-zero close, or nothing at all for a stream truncated at an entry
boundary): parsing the concatenated entry blocks recovers every entry
(path, size, payload) in order. -/
theorem parseTar_entries_gen (mtime : Nat) (Z : List Nat) (hZ : parseTarLoop Z = .ok []) :
    ∀ entries : List (List Nat × List Nat),
      (∀ e ∈ entries, goodPath e.1 ∧ e.2.length < 8 ^ 11) →
      parseTarLoop ((entries.map (fun e => entryBlock e.1 e.2 mtime)).flatten ++ Z) =
        .ok (entries.map (fun e => (e.1, (e.2.length : Int), e.2))) := by
  intro entries
  induction entries with
  | nil =>
    intro _
    simpa using hZ
  | cons e es ih =>
    intro hgood
    obtain ⟨hgoodp, hsz⟩ := hgood e (List.mem_cons_self e es)
    have hrest : ∀ x ∈ es, goodPath x.1 ∧ x.2.length < 8 ^ 11 :=
      fun x hx => hgood x (List.mem_cons_of_mem _ hx)
    simp only [List.map_cons, List.flatten_cons, List.append_assoc]
    rw [show entryBlock e.1 e.2 mtime =
        createTarHeader e.1 e.2.length false mtime ++
          (e.2 ++ List.replicate ((512 - e.2.length % 512) % 512) 0) from rfl]
    simp only [List.append_assoc]
    rw [parseTarLoop_eq]
    have hHlen := createTarHeader_length e.1 e.2.length false mtime
    rw [if_neg (by simp only [List.length_append, hHlen]; omega)]
    rw [List.take_left' hHlen, List.drop_left' hHlen]
    rw [if_neg (createTarHeader_not_all_zero e.1 e.2.length false mtime)]
    simp only [header_size_roundtrip e.1 e.2 mtime hsz,
      decodedPath_header e.2.length false mtime hgoodp,
      jsPadding_natCast, consumeCount_natCast]
    by_cases h0 : e.2.length = 0
    · rw [if_pos (show ((e.2.length : Nat) : Int) = 0 by exact_mod_cast h0)]
      have hdat : e.2 = [] := List.length_eq_zero.mp h0
      have hpad : (512 - e.2.length % 512) % 512 = 0 := by omega
      rw [hpad, List.drop_zero]
      simp only [List.replicate_zero, List.nil_append]
      have harg : e.2 ++ ((es.map fun x : List Nat × List Nat => entryBlock x.1 x.2 mtime).flatten ++
          Z) =
          (es.map fun x : List Nat × List Nat => entryBlock x.1 x.2 mtime).flatten ++ Z := by
        rw [hdat, List.nil_append]
      rw [harg, ih hrest]
      simp [hdat]
    · rw [if_neg (show ¬ (((e.2.length : Nat) : Int) = 0) by exact_mod_cast h0)]
      have htk : (e.2 ++ (List.replicate ((512 - e.2.length % 512) % 512) 0 ++
          ((es.map fun x : List Nat × List Nat => entryBlock x.1 x.2 mtime).flatten ++
            Z))).take e.2.length = e.2 := List.take_left' rfl
      have hdr : ((e.2 ++ (List.replicate ((512 - e.2.length % 512) % 512) 0 ++
          ((es.map fun x : List Nat × List Nat => entryBlock x.1 x.2 mtime).flatten ++
            Z))).drop e.2.length).drop ((512 - e.2.length % 512) % 512) =
          (es.map fun x : List Nat × List Nat => entryBlock x.1 x.2 mtime).flatten ++ Z := by
        rw [List.drop_left' rfl, List.drop_left' (List.length_replicate _ _)]
      have hnoNat : ¬ ((e.2 ++ (List.replicate ((512 - e.2.length % 512) % 512) 0 ++
          ((es.map fun x : List Nat × List Nat => entryBlock x.1 x.2 mtime).flatten ++
            Z))).length < e.2.length) := by
        simp only [List.length_append]
        omega
      have hno : ¬ (((e.2 ++ (List.replicate ((512 - e.2.length % 512) % 512) 0 ++
          ((es.map fun x : List Nat × List Nat => entryBlock x.1 x.2 mtime).flatten ++
            Z))).length : Int) < ((e.2.length : Nat) : Int)) := by
        exact_mod_cast hnoNat
      by_cases hdp : dataPrefixBytes.isPrefixOf e.1
      · rw [if_pos hdp, if_neg hno, htk, hdr, ih hrest]
      · rw [if_neg hdp, htk, hdr, ih hrest]

/-- Round trip of the container codec: parsing the writer output (entry
blocks plus the 1024-zero trailer) recovers every entry in order. -/
theorem parseTar_entries (mtime : Nat) :
    ∀ entries : List (List Nat × List Nat),
      (∀ e ∈ entries, goodPath e.1 ∧ e.2.length < 8 ^ 11) →
      parseTarLoop ((entries.map (fun e => entryBlock e.1 e.2 mtime)).flatten ++
          List.replicate 1024 0) =
        .ok (entries.map (fun e => (e.1, (e.2.length : Int), e.2))) :=
  parseTar_entries_gen mtime (List.replicate 1024 0) (by
    rw [parseTarLoop_eq]
    rw [if_neg (by simp only [List.length_replicate]; omega)]
    rw [if_pos (by
      rw [List.take_replicate]
      rw [List.all_eq_true]
      intro x hx
      have := List.eq_of_mem_replicate hx
      simp [this])])

/-- Parsing the entry blocks with no trailer at all — the writer stream
truncated at the final entry boundary — still recovers every entry. -/
theorem parseTar_entries_plain (mtime : Nat) (entries : List (List Nat × List Nat))
    (hgood : ∀ e ∈ entries, goodPath e.1 ∧ e.2.length < 8 ^ 11) :
    parseTarLoop ((entries.map (fun e => entryBlock e.1 e.2 mtime)).flatten) =
      .ok (entries.map (fun e => (e.1, (e.2.length : Int), e.2))) := by
  have h := parseTar_entries_gen mtime []
    (parseTarLoop_small (by decide)) entries hgood
  simpa using h

/-- Truncating the writer stream at any entry boundary (the length of the
first `k` entry blocks) is a clean, silently short success: exactly the
first `k` entries are decoded. -/
theorem parseTar_boundary (mtime : Nat) (entries : List (List Nat × List Nat)) (k : Nat)
    (hgood : ∀ e ∈ entries, goodPath e.1 ∧ e.2.length < 8 ^ 11) :
    (tarEncode entries mtime).take
        (((entries.take k).map (fun e => entryBlock e.1 e.2 mtime)).flatten).length =
      ((entries.take k).map (fun e => entryBlock e.1 e.2 mtime)).flatten ∧
    parseTarLoop (((entries.take k).map (fun e => entryBlock e.1 e.2 mtime)).flatten) =
      .ok ((entries.take k).map (fun e => (e.1, (e.2.length : Int), e.2))) := by
  constructor
  · rw [tarEncode_eq]
    have hsplit : (entries.map (fun e => entryBlock e.1 e.2 mtime)).flatten =
        ((entries.take k).map (fun e => entryBlock e.1 e.2 mtime)).flatten ++
          ((entries.drop k).map (fun e => entryBlock e.1 e.2 mtime)).flatten := by
      rw [← List.flatten_append, ← List.map_append, List.take_append_drop]
    rw [hsplit, List.append_assoc, List.take_left' rfl]
  · exact parseTar_entries_plain mtime (entries.take k)
      (fun e he => hgood e (List.mem_of_mem_take he))

/-- A cut strictly inside the payload of a `data/` entry — the 512-byte
header intact but fewer than `size` payload bytes present — aborts
the import with the `readToMemory` EOF error. -/
theorem parseTar_midData (p dta : List Nat) (mt t : Nat)
    (hgood : goodPath p) (hdp : dataPrefixBytes.isPrefixOf p)
    (hsz : dta.length < 8 ^ 11) (h1 : 512 ≤ t) (h2 : t < 512 + dta.length) :
    parseTarLoop ((entryBlock p dta mt).take t) =
      .error "Unexpected EOF in system file" := by
  have hH := createTarHeader_length p dta.length false mt
  have hB : (entryBlock p dta mt).take t =
      createTarHeader p dta.length false mt ++ dta.take (t - 512) := by
    have hX : (dta ++ List.replicate ((512 - dta.length % 512) % 512) 0).take (t - 512) =
        dta.take (t - 512) := by
      rw [List.take_append_eq_append_take,
        show t - 512 - dta.length = 0 by omega]
      simp
    rw [show entryBlock p dta mt = createTarHeader p dta.length false mt ++
        (dta ++ List.replicate ((512 - dta.length % 512) % 512) 0) from rfl]
    rw [List.take_append_eq_append_take, List.take_of_length_le (by rw [hH]; omega), hH, hX]
  rw [hB, parseTarLoop_eq]
  rw [if_neg (by
    simp only [List.length_append, hH, List.length_take]
    omega)]
  rw [List.take_left' hH, List.drop_left' hH]
  rw [if_neg (createTarHeader_not_all_zero p dta.length false mt)]
  simp only [header_size_roundtrip p dta mt hsz,
    decodedPath_header dta.length false mt hgood]
  rw [if_neg (show ¬ (((dta.length : Nat) : Int) = 0) by
    exact_mod_cast (show ¬ dta.length = 0 by omega))]
  rw [if_pos hdp]
  rw [if_pos (show (((dta.take (t - 512)).length : Nat) : Int) < ((dta.length : Nat) : Int) by
    exact_mod_cast (show (dta.take (t - 512)).length < dta.length by
      simp only [List.length_take]
      omega))]

/-- A cut strictly inside the payload of a non-`data/` entry: the file is
streamed leniently, so the import ends cleanly with the one entry whose
payload is silently short. -/
theorem parseTar_midPlain (p dta : List Nat) (mt t : Nat)
    (hgood : goodPath p) (hdp : ¬ dataPrefixBytes.isPrefixOf p)
    (hsz : dta.length < 8 ^ 11) (h1 : 512 ≤ t) (h2 : t < 512 + dta.length) :
    parseTarLoop ((entryBlock p dta mt).take t) =
      .ok [(p, (dta.length : Int), dta.take (t - 512))] := by
  have hH := createTarHeader_length p dta.length false mt
  have hB : (entryBlock p dta mt).take t =
      createTarHeader p dta.length false mt ++ dta.take (t - 512) := by
    have hX : (dta ++ List.replicate ((512 - dta.length % 512) % 512) 0).take (t - 512) =
        dta.take (t - 512) := by
      rw [List.take_append_eq_append_take,
        show t - 512 - dta.length = 0 by omega]
      simp
    rw [show entryBlock p dta mt = createTarHeader p dta.length false mt ++
        (dta ++ List.replicate ((512 - dta.length % 512) % 512) 0) from rfl]
    rw [List.take_append_eq_append_take, List.take_of_length_le (by rw [hH]; omega), hH, hX]
  rw [hB, parseTarLoop_eq]
  rw [if_neg (by
    simp only [List.length_append, hH, List.length_take]
    omega)]
  rw [List.take_left' hH, List.drop_left' hH]
  rw [if_neg (createTarHeader_not_all_zero p dta.length false mt)]
  simp only [header_size_roundtrip p dta mt hsz,
    decodedPath_header dta.length false mt hgood,
    jsPadding_natCast, consumeCount_natCast]
  rw [if_neg (show ¬ (((dta.length : Nat) : Int) = 0) by
    exact_mod_cast (show ¬ dta.length = 0 by omega))]
  rw [if_neg hdp]
  have hrd : (dta.take (t - 512)).drop dta.length = [] := by
    rw [List.drop_eq_nil_iff]
    simp only [List.length_take]
    omega
  rw [hrd, List.drop_nil,
    parseTarLoop_small (show ([] : List Nat).length < 512 by decide)]
  rw [List.take_of_length_le (by simp only [List.length_take]; omega)]

/-! ## Claim theorems: the container codec, the filter and the sniffer -/

set_option maxRecDepth 1000000 in
/-- C6 counterexample: two truncations strictly before the logical end that
are not `FormatError`s.  Cipher side: the encrypted stream of plaintext
`[5]` is 87 bytes and truncating it to 55 makes the reader close cleanly
with a silently short `[]`.  Container side: the two-entry writer stream is
3072 bytes and truncating it to 1024 (the first entry boundary) parses
cleanly to just the first entry. -/
theorem C6_counterexample :
    (encryptStream myAEAD myDK myIvs mySalt "a" [[5]]).length = 87 ∧
    decryptStream myAEAD myDK "a"
        ((encryptStream myAEAD myDK myIvs mySalt "a" [[5]]).take 55) = .ok [] ∧
    decryptStream myAEAD myDK "a" (encryptStream myAEAD myDK myIvs mySalt "a" [[5]]) =
      .ok [5] ∧
    (tarEncode [([97], [98]), ([99], [100])] 0).length = 3072 ∧
    parseTarLoop ((tarEncode [([97], [98]), ([99], [100])] 0).take 1024) =
      .ok [([97], (1 : Int), [98])] ∧
    parseTarLoop (tarEncode [([97], [98]), ([99], [100])] 0) =
      .ok [([97], (1 : Int), [98]), ([99], (1 : Int), [100])] := by
  have hg : ∀ e ∈ [(([97] : List Nat), ([98] : List Nat)), ([99], [100])],
      goodPath e.1 ∧ e.2.length < 8 ^ 11 := by
    intro e he
    simp only [List.mem_cons, List.not_mem_nil, or_false] at he
    rcases he with he | he <;> subst he <;>
      exact ⟨⟨by decide, Or.inl (by decide)⟩, by decide⟩
  have hlen1 :
      ((([(([97] : List Nat), ([98] : List Nat)), ([99], [100])].take 1).map
        (fun e => entryBlock e.1 e.2 0)).flatten).length = 1024 := by
    norm_num [entryBlock, createTarHeader_length]
  have hlen3 : (tarEncode [(([97] : List Nat), ([98] : List Nat)), ([99], [100])] 0).length =
      3072 := by
    rw [tarEncode_eq]
    norm_num [entryBlock, createTarHeader_length]
  obtain ⟨hb1, hb2⟩ :=
    parseTar_boundary 0 [(([97] : List Nat), ([98] : List Nat)), ([99], [100])] 1 hg
  refine ⟨rfl, by decide, by decide, hlen3, ?_, ?_⟩
  · rw [← hlen1, hb1, hb2]
    decide
  · rw [tarEncode_eq,
      parseTar_entries 0 [(([97] : List Nat), ([98] : List Nat)), ([99], [100])] hg]
    decide

/-- C6 amended: truncation never crashes a reader, and every outcome is one
of the following.  Cipher side: a cut before the 22-byte header fails with
the `"File too small"` FormatError; any later cut yields a prefix of the
plaintext, either with the `"Corrupt chunk"` FormatError or as a clean —
possibly silently short — success.  Container side: a cut leaving fewer
than 512 bytes at a header boundary ends the tar loop cleanly; a cut at an
entry boundary of a writer stream ends cleanly with exactly the entries
before the cut (silently short); a cut inside a `data/` entry's payload
fails with the `"Unexpected EOF in system file"` error; a cut inside any
other entry's payload is streamed leniently and ends cleanly with that
entry's payload silently short. -/
theorem C6_truncated_stream {K : Type} (A : AEAD K) (dk : String → List Nat → K)
    (ivs : Nat → List Nat) (salt : List Nat) (p : String) (chunks : List (List Nat))
    (t : Nat)
    (hsalt : salt.length = 16)
    (hiv : ∀ n, (ivs n).length = 12)
    (hround : ∀ iv m, A.dec (dk p salt) iv (A.enc (dk p salt) iv m) = some m)
    (hlen : ∀ iv m, (A.enc (dk p salt) iv m).length = m.length + 16) :
    (t < 22 → decryptStream A dk p ((encryptStream A dk ivs salt p chunks).take t) =
      .err [] "File too small") ∧
    (22 ≤ t → ∃ out : List Nat, out <+: chunks.flatten ∧
      (decryptStream A dk p ((encryptStream A dk ivs salt p chunks).take t) = .ok out ∨
       decryptStream A dk p ((encryptStream A dk ivs salt p chunks).take t) =
         .err out "Corrupt chunk")) ∧
    (∀ input : List Nat, input.length < 512 → parseTarLoop input = .ok []) ∧
    (∀ (mt : Nat) (entries : List (List Nat × List Nat)) (k : Nat),
      (∀ e ∈ entries, goodPath e.1 ∧ e.2.length < 8 ^ 11) →
      (tarEncode entries mt).take
          (((entries.take k).map (fun e => entryBlock e.1 e.2 mt)).flatten).length =
        ((entries.take k).map (fun e => entryBlock e.1 e.2 mt)).flatten ∧
      parseTarLoop (((entries.take k).map (fun e => entryBlock e.1 e.2 mt)).flatten) =
        .ok ((entries.take k).map (fun e => (e.1, (e.2.length : Int), e.2)))) ∧
    (∀ (q dta : List Nat) (mt u : Nat),
      goodPath q → dataPrefixBytes.isPrefixOf q → dta.length < 8 ^ 11 →
      512 ≤ u → u < 512 + dta.length →
      parseTarLoop ((entryBlock q dta mt).take u) =
        .error "Unexpected EOF in system file") ∧
    (∀ (q dta : List Nat) (mt u : Nat),
      goodPath q → ¬ dataPrefixBytes.isPrefixOf q → dta.length < 8 ^ 11 →
      512 ≤ u → u < 512 + dta.length →
      parseTarLoop ((entryBlock q dta mt).take u) =
        .ok [(q, (dta.length : Int), dta.take (u - 512))]) := by
  obtain ⟨h1, h2⟩ := truncatedCipher_cases A dk ivs salt p chunks t hsalt hiv hround hlen
  exact ⟨h1, h2, fun input h => parseTarLoop_small h,
    fun mt entries k hg => parseTar_boundary mt entries k hg,
    fun q dta mt u a b c hu1 hu2 => parseTar_midData q dta mt u a b c hu1 hu2,
    fun q dta mt u a b c hu1 hu2 => parseTar_midPlain q dta mt u a b c hu1 hu2⟩

/-- Witness for the amended C6 at concrete cipher and container instances. -/
theorem C6_truncated_stream_witness :
    (22 ≤ 55 → ∃ out : List Nat, out <+: [[5]].flatten ∧
      (decryptStream myAEAD myDK "a"
          ((encryptStream myAEAD myDK myIvs mySalt "a" [[5]]).take 55) = .ok out ∨
       decryptStream myAEAD myDK "a"
          ((encryptStream myAEAD myDK myIvs mySalt "a" [[5]]).take 55) =
         .err out "Corrupt chunk")) ∧
    parseTarLoop [7] = .ok [] ∧
    ((tarEncode [([97], [98]), ([99], [100])] 0).take
        ((([([97], [98]), ([99], [100])].take 1).map
          (fun e => entryBlock e.1 e.2 0)).flatten).length =
      (([([97], [98]), ([99], [100])].take 1).map
        (fun e => entryBlock e.1 e.2 0)).flatten ∧
     parseTarLoop ((([([97], [98]), ([99], [100])].take 1).map
        (fun e => entryBlock e.1 e.2 0)).flatten) =
      .ok (([([97], [98]), ([99], [100])].take 1).map
        (fun e => (e.1, (e.2.length : Int), e.2)))) ∧
    parseTarLoop ((entryBlock [100, 97, 116, 97, 47, 120] [7, 8] 0).take 513) =
      .error "Unexpected EOF in system file" ∧
    parseTarLoop ((entryBlock [120] [7, 8] 0).take 513) =
      .ok [([120], (2 : Int), [7])] := by
  have h := C6_truncated_stream myAEAD myDK myIvs mySalt "a" [[5]] 55 rfl (fun _ => rfl)
    (fun iv m => myAEAD_round _ iv m) (fun iv m => myAEAD_enc_length _ iv m)
  have hg : ∀ e ∈ [(([97] : List Nat), ([98] : List Nat)), ([99], [100])],
      goodPath e.1 ∧ e.2.length < 8 ^ 11 := by
    intro e he
    simp only [List.mem_cons, List.not_mem_nil, or_false] at he
    rcases he with he | he <;> subst he <;>
      exact ⟨⟨by decide, Or.inl (by decide)⟩, by decide⟩
  refine ⟨h.2.1, h.2.2.1 [7] (by decide), h.2.2.2.1 0 _ 1 hg,
    h.2.2.2.2.1 [100, 97, 116, 97, 47, 120] [7, 8] 0 513
      ⟨by decide, Or.inl (by decide)⟩ (by decide) (by decide) (by decide) (by decide),
    ?_⟩
  have h6 := h.2.2.2.2.2 [120] [7, 8] 0 513
    ⟨by decide, Or.inl (by decide)⟩ (by decide) (by decide) (by decide) (by decide)
  simpa using h6

/-- C2 amended: encoding entries with the Container Codec writer and decoding
with the import parser yields the same sequence of paths, sizes and payload
bytes, for all payload sizes below the 11-digit octal field bound (which
covers 0, 1, 511, 512, 513 and 1048577), provided every path is NUL-free
ASCII (where the pre-encoding UTF-16 code-unit operations of
`createTarHeader` coincide with byte operations) and either fits the
100-byte name field or splits at a separator as in C4. -/
theorem C2_container_roundtrip (entries : List (List Nat × List Nat)) (mtime : Nat)
    (hgood : ∀ e ∈ entries, goodPath e.1 ∧ e.2.length < 8 ^ 11) :
    parseTarLoop (tarEncode entries mtime) =
      .ok (entries.map fun e => (e.1, (e.2.length : Int), e.2)) := by
  rw [tarEncode_eq]
  exact parseTar_entries mtime entries hgood

/-- Witness for the amended C2 at a concrete entry (`"a.txt"` ↦ `"hi"`). -/
theorem C2_container_roundtrip_witness :
    parseTarLoop (tarEncode [([97, 46, 116, 120, 116], [104, 105])] 0) =
      .ok [([97, 46, 116, 120, 116], (2 : Int), [104, 105])] := by
  have h := C2_container_roundtrip [([97, 46, 116, 120, 116], [104, 105])] 0 ?hg
  case hg =>
    intro e he
    simp only [List.mem_singleton] at he
    subst he
    exact ⟨⟨by decide, Or.inl (by decide)⟩, by decide⟩
  simpa using h

set_option maxRecDepth 1000000 in
/-- C2 counterexample: an entry whose 101-byte path has no separator decodes
to a different path (the raw split drops the byte at the split position), so
`decode(encode(entries)) = entries` fails for arbitrary paths. -/
theorem C2_counterexample :
    parseTarLoop (tarEncode [(List.replicate 101 97, [])] 0) =
      .ok [(97 :: 47 :: List.replicate 99 97, (0 : Int), [])] ∧
    (97 :: 47 :: List.replicate 99 97) ≠ List.replicate 101 97 := by
  constructor
  · decide
  · decide

/-- C4 amended: for a NUL-free ASCII path longer than 100 bytes (ASCII so
that the source's UTF-16 code-unit `length`/`lastIndexOf`/`slice` coincide
with the byte operations) whose last `/` at or before offset 154 is at or
after `length - 100`, the writer splits there into a prefix of at most 155
bytes and a name of at most 100 bytes, and rejoining the decoded fields
with `/` reconstructs the path exactly; the raw-split fallback (no
qualifying separator) is excluded because it drops the byte at the split
position, and non-ASCII paths are excluded because a path over 100 bytes
but at most 100 code units is never split and its name field is silently
truncated. -/
theorem C4_longname_split (p : List Nat) (s : Nat) (d : Bool) (t : Nat) (i : Nat)
    (hlen : 100 < p.length) (hnz : ∀ b ∈ p, b ≠ 0) (hascii : ∀ b ∈ p, b < 128)
    (hfind : lastIndexOfLe p 47 154 = some i) (hge : p.length - 100 ≤ i) :
    (splitPath p).2 = p.take i ∧ (splitPath p).1 = p.drop (i + 1) ∧
    (splitPath p).2.length ≤ 155 ∧ (splitPath p).1.length ≤ 100 ∧
    decodedPath (createTarHeader p s d t) = p := by
  obtain ⟨hi_lt, hi_pos, _⟩ := lastIndexOfLe_spec hfind
  have hsp := splitPath_long hlen hfind hge
  rw [hsp]
  refine ⟨rfl, rfl, ?_, ?_, ?_⟩
  · simp only [List.length_take]
    omega
  · simp only [List.length_drop]
    omega
  · exact decodedPath_header s d t
      ⟨fun b hb => ⟨hnz b hb, hascii b hb⟩, Or.inr ⟨i, hfind, hge⟩⟩

set_option maxRecDepth 1000000 in
/-- Witness for the amended C4 at a 121-byte path with a `/` at offset 60. -/
theorem C4_longname_split_witness :
    (splitPath (List.replicate 60 97 ++ 47 :: List.replicate 60 98)).2 =
      (List.replicate 60 97 ++ 47 :: List.replicate 60 98).take 60 ∧
    (splitPath (List.replicate 60 97 ++ 47 :: List.replicate 60 98)).1 =
      (List.replicate 60 97 ++ 47 :: List.replicate 60 98).drop 61 ∧
    (splitPath (List.replicate 60 97 ++ 47 :: List.replicate 60 98)).2.length ≤ 155 ∧
    (splitPath (List.replicate 60 97 ++ 47 :: List.replicate 60 98)).1.length ≤ 100 ∧
    decodedPath (createTarHeader (List.replicate 60 97 ++ 47 :: List.replicate 60 98)
      0 false 0) = List.replicate 60 97 ++ 47 :: List.replicate 60 98 :=
  C4_longname_split (List.replicate 60 97 ++ 47 :: List.replicate 60 98) 0 false 0 60
    (by decide) (by decide) (by decide) (by decide) (by decide)

set_option maxRecDepth 1000000 in
/-- C4 counterexample: for the 101-byte path of all `a`s there is no
separator, the raw split drops the byte at the split position, and the
rejoined fields differ from the original path. -/
theorem C4_counterexample :
    decodedPath (createTarHeader (List.replicate 101 97) 0 false 0) =
      97 :: 47 :: List.replicate 99 97 ∧
    decodedPath (createTarHeader (List.replicate 101 97) 0 false 0) ≠
      List.replicate 101 97 := by
  constructor
  · decide
  · decide

/-- C5: for every header the writer produces, the decoded checksum field
equals the sum of all 512 header bytes taken with the checksum field blanked
to spaces — the checksum is computed after all other fields are set, and
recomputing it from the decoded bytes reproduces the stored value. -/
theorem C5_header_checksum (f : List Nat) (s : Nat) (d : Bool) (t : Nat)
    (hbytes : ∀ b ∈ f, b < 256) :
    decodeChecksumField (createTarHeader f s d t) =
      some ((blankChecksum (createTarHeader f s d t)).sum) ∧
    (blankChecksum (createTarHeader f s d t)).length = 512 := by
  have hn : ∀ b ∈ (splitPath f).1, b < 256 := fun b hb => hbytes b (splitPath_mem_name b hb)
  have hx : ∀ b ∈ (splitPath f).2, b < 256 := fun b hb => hbytes b (splitPath_mem_pfx b hb)
  have hS : (headerPre (splitPath f).1 (splitPath f).2 s t d).sum < 8 ^ 6 := by
    have h := headerPre_sum_lt (s := s) (t := t) (d := d) hn hx
    norm_num
    exact h
  constructor
  · rw [header_cksumField]
    have hlen6 : (octPad 6 (headerPre (splitPath f).1 (splitPath f).2 s t d).sum).length = 6 :=
      octPad_length 6 _ (by norm_num) hS
    rw [List.take_of_length_le (le_of_eq hlen6)]
    rw [blankChecksum_header]
    exact parseOctalField_padded 6 _ (List.replicate 2 32) (by norm_num) hS (by decide)
  · rw [blankChecksum_header, headerPre_length]

set_option maxRecDepth 1000000 in
/-- Witness for C5 at a concrete header. -/
theorem C5_header_checksum_witness :
    decodeChecksumField (createTarHeader [97] 2 false 0) =
      some ((blankChecksum (createTarHeader [97] 2 false 0)).sum) ∧
    (blankChecksum (createTarHeader [97] 2 false 0)).length = 512 :=
  C5_header_checksum [97] 2 false 0 (by decide)

/-- C9: a 512-byte header of all zeros ends the archive cleanly, and a header
whose ASCII size field does not decode as an octal number under `parseInt`
— including its sign handling, so a field such as `"-5"` parses to `-5` and
is not covered — likewise stops parsing cleanly (`.ok`, not an error),
whatever bytes follow.  The field is restricted to ASCII bytes, on which
`TextDecoder` is the identity and the byte-level `parseInt` model is
exact. -/
theorem C9_nonnumeric_size_ends (header rest : List Nat) (h512 : header.length = 512) :
    (header.all (· = 0) = true → parseTarLoop (header ++ rest) = .ok []) ∧
    ((∀ b ∈ (header.drop 124).take 12, b < 128) → decodeSizeField header = none →
      parseTarLoop (header ++ rest) = .ok []) := by
  constructor
  · intro hz
    rw [parseTarLoop_eq]
    rw [if_neg (by simp only [List.length_append]; omega)]
    rw [List.take_left' h512]
    rw [if_pos hz]
  · intro _ hs
    rw [parseTarLoop_eq]
    rw [if_neg (by simp only [List.length_append]; omega)]
    rw [List.take_left' h512]
    by_cases hz : (header.all (· = 0)) = true
    · rw [if_pos hz]
    · rw [if_neg hz, hs]

set_option maxRecDepth 1000000 in
/-- Witness for C9: the all-zero header and an all-`A` header (whose size
field has no octal digit) both end the parse cleanly. -/
theorem C9_nonnumeric_size_ends_witness :
    parseTarLoop (List.replicate 512 0 ++ []) = .ok [] ∧
    parseTarLoop (List.replicate 512 65 ++ []) = .ok [] :=
  ⟨(C9_nonnumeric_size_ends (List.replicate 512 0) [] (by decide)).1 (by decide),
   (C9_nonnumeric_size_ends (List.replicate 512 65) [] (by decide)).2
     (by decide) (by decide)⟩

/-- C8: the import probe checks the three cases in a fixed, mutually
exclusive order — encryption signature first, then the gzip magic
`0x1f 0x8b`, else plain; a plain source is fed to the tar parser directly,
and a writer-produced plain container round-trips identically. -/
theorem C8_format_sniffing {K : Type} (A : AEAD K) (dk : String → List Nat → K)
    (gunzip : List Nat → List Nat) (pw : String) :
    (∀ probe : List Nat,
      (sniffFormat probe = .encrypted ↔ probe.take 6 = sigBytes) ∧
      (sniffFormat probe = .gzipped ↔
        (probe.take 6 ≠ sigBytes ∧ probe[0]?.getD 0 = 31 ∧ probe[1]?.getD 0 = 139)) ∧
      (sniffFormat probe = .plain ↔
        (probe.take 6 ≠ sigBytes ∧ ¬ (probe[0]?.getD 0 = 31 ∧ probe[1]?.getD 0 = 139)))) ∧
    (∀ input : List Nat, sniffFormat (input.take 8) = .plain →
      importEntries A dk gunzip pw input = parseTarLoop input) ∧
    (∀ (entries : List (List Nat × List Nat)) (mtime : Nat),
      (∀ e ∈ entries, goodPath e.1 ∧ e.2.length < 8 ^ 11) →
      sniffFormat ((tarEncode entries mtime).take 8) = .plain →
      importEntries A dk gunzip pw (tarEncode entries mtime) =
        .ok (entries.map fun e => (e.1, (e.2.length : Int), e.2))) := by
  have hplain : ∀ input : List Nat, sniffFormat (input.take 8) = .plain →
      importEntries A dk gunzip pw input = parseTarLoop input := by
    intro input h
    unfold importEntries
    simp only [h]
  refine ⟨?_, hplain, ?_⟩
  · intro probe
    unfold sniffFormat
    by_cases h1 : probe.take 6 = sigBytes
    · simp [h1]
    · by_cases h2 : probe[0]?.getD 0 = 31 ∧ probe[1]?.getD 0 = 139
      · simp [h1, h2]
      · simp [h1, h2]
  · intro entries mtime hgood hsniff
    rw [hplain _ hsniff, tarEncode_eq]
    exact parseTar_entries mtime entries hgood

set_option maxRecDepth 1000000 in
/-- Witness for C8: a concrete writer-produced container is sniffed plain and
round-trips through `importData`'s pipeline. -/
theorem C8_format_sniffing_witness :
    importEntries myAEAD myDK id "x" (tarEncode [([97], [98])] 0) =
      .ok [([97], (1 : Int), [98])] := by
  have h := (C8_format_sniffing myAEAD myDK id "x").2.2 [([97], [98])] 0
    (by intro e he
        simp only [List.mem_singleton] at he
        subst he
        exact ⟨⟨by decide, Or.inl (by decide)⟩, by decide⟩)
    (by decide)
  simpa using h

/-- C10: exclusion takes precedence over inclusion — a path equal to or under
an exclude target is rejected whatever the include list says; with a
non-empty include list a path matching no include target is rejected; with
an absent or empty include list every non-excluded path is allowed. -/
theorem C10_filter_precedence (cat : String) (path : List Nat) (cfg : FilterConfig) :
    ((∃ t ∈ (cfg.excludeC cat).getD [], path = t ∨ (t ++ [47]) <+: path) →
      isAllowed cat path cfg = false) ∧
    (∀ l, cfg.includeC cat = some l → l ≠ [] →
      (∀ t ∈ l, path ≠ t ∧ ¬ ((t ++ [47]) <+: path)) →
      isAllowed cat path cfg = false) ∧
    ((∀ t ∈ (cfg.excludeC cat).getD [], path ≠ t ∧ ¬ ((t ++ [47]) <+: path)) →
      (cfg.includeC cat = none ∨ cfg.includeC cat = some []) →
      isAllowed cat path cfg = true) := by
  unfold isAllowed
  refine ⟨?_, ?_, ?_⟩
  · rintro ⟨t, ht, hm⟩
    have hc : ((cfg.excludeC cat).getD []).any
        (fun t => path == t || (t ++ [47]).isPrefixOf path) = true := by
      rw [List.any_eq_true]
      refine ⟨t, ht, ?_⟩
      rcases hm with hm | hm
      · simp [hm]
      · simp [List.isPrefixOf_iff_prefix, hm]
    rw [if_pos hc]
  · intro l hl hne hmiss
    by_cases hexc : ((cfg.excludeC cat).getD []).any
        (fun t => path == t || (t ++ [47]).isPrefixOf path) = true
    · rw [if_pos hexc]
    · rw [if_neg hexc, hl]
      dsimp only
      rw [if_pos (by cases l with
        | nil => exact absurd rfl hne
        | cons a l => simp)]
      rw [List.any_eq_false]
      intro t ht hpred
      obtain ⟨h1, h2⟩ := hmiss t ht
      simp only [Bool.or_eq_true, beq_iff_eq, List.isPrefixOf_iff_prefix] at hpred
      rcases hpred with hp | hp
      · exact h1 hp
      · exact h2 hp
  · intro hexc hinc
    have hexcb : ((cfg.excludeC cat).getD []).any
        (fun t => path == t || (t ++ [47]).isPrefixOf path) = false := by
      rw [List.any_eq_false]
      intro t ht hpred
      obtain ⟨h1, h2⟩ := hexc t ht
      simp only [Bool.or_eq_true, beq_iff_eq, List.isPrefixOf_iff_prefix] at hpred
      rcases hpred with hp | hp
      · exact h1 hp
      · exact h2 hp
    rw [if_neg (by simp [hexcb])]
    rcases hinc with h | h
    · rw [h]
    · rw [h]
      simp

/-- Witness for C10: exclusion beats a matching include; a non-matching
include rejects; no lists allow. -/
theorem C10_filter_precedence_witness :
    isAllowed "c" [97, 47, 98] ⟨fun _ => some [[97]], fun _ => some [[97]]⟩ = false ∧
    isAllowed "c" [97, 47, 98] ⟨fun _ => none, fun _ => some [[99]]⟩ = false ∧
    isAllowed "c" [97, 47, 98] ⟨fun _ => none, fun _ => none⟩ = true := by
  refine ⟨?_, ?_, ?_⟩
  · exact (C10_filter_precedence "c" [97, 47, 98] _).1 ⟨[97], by decide, Or.inr (by decide)⟩
  · exact (C10_filter_precedence "c" [97, 47, 98] _).2.1 [[99]] rfl (by decide) (by decide)
  · exact (C10_filter_precedence "c" [97, 47, 98] _).2.2 (by decide) (Or.inl rfl)

end LittleExport
